import Mathlib

/-!
# powork: proof-of-work search and validation

A shallow embedding of `powork.go` (package `powork`).

* Go `byte` is `Fin 256`; `[]byte` and `string` are `List Byte`.
* Go `int` is taken to be 64 bits wide: an `Int` kept in range by `wrapInt`.
* Go `uint64` is a `Nat` kept in range by `% 2^64`.
* The `hash.Hash` collaborator is modelled by its contract: the state of a hasher
  is the input written to it since the last `Reset`, `Sum` is a function of that
  input, and `Write` may report an error.
* The timer behind `time.After` is an oracle `fired : Nat → Bool`: the answer
  of the k-th non-blocking receive on the timeout channel.
* The unbounded `for` loop of `DoProofFor` takes fuel: one unit per validation.
* A result channel is its buffer and its queue of waiting senders; the goroutine
  of `PrepareProof` and of `SendProofToChannel` is run on it as far as it gets on
  its own, and receives are steps on the same state.
* `PrepareProofWithContext` and `SendProofToChannelWithContext` are not in the
  source at hand; they are modelled from section 4.3 of the specification, with
  an oracle for the checks of the cancellation signal.
-/

namespace Powork

/-- A Go `byte`. -/
abbrev Byte := Fin 256

/-- Go `error` values: those made by `errors.New`, and those handed back by the
hasher's `Write`. -/
inductive GoError where
  | new (text : String)
  | hashWrite (code : Nat)
  deriving DecidableEq, Repr

/-- Two's complement wrap-around of a 64-bit signed Go `int`. -/
def wrapInt (z : Int) : Int :=
  (z + 9223372036854775808) % 18446744073709551616 - 9223372036854775808

/-- Wrap-around of a Go `uint64`. -/
def wrapUint64 (n : Nat) : Nat := n % 18446744073709551616

/-- A hash algorithm behind the `hash.Hash` interface: `digest` is the hash of a
byte string, and `writeErr absorbed bs` is the error that `Write(bs)` reports
when `absorbed` has been written since the last reset (`none` for `nil`). -/
structure Hash where
  digest : List Byte → List Byte
  writeErr : List Byte → List Byte → Option GoError

/-- The method `Reset` on a hasher in state `s`: "resets the Hash to its initial
state", in which nothing has been written. -/
def Hash.Reset (_h : Hash) (_s : List Byte) : List Byte := []

/-- The method `Write` on a hasher in state `s`: "adds more data to the running
hash"; the new state and the reported error. -/
def Hash.Write (h : Hash) (s : List Byte) (bs : List Byte) : List Byte × Option GoError :=
  (s ++ bs, h.writeErr s bs)

/-- The call `Sum(nil)` on a hasher in state `s`: the hash of what was written;
"it does not change the underlying hash state". -/
def Hash.Sum (h : Hash) (s : List Byte) : List Byte := h.digest s

/-- Worker represents an object that calculates proofs of work and verifies
them; `hashFn` and `hasher` are the algorithm and the running state of the
`hasher` interface value. -/
structure Worker where
  difficulty : Int
  hashFn : Hash
  hasher : List Byte
  maxWait : Int

/-- A PoWork represents a (potentially valid) proof of work for a message. -/
structure PoWork where
  msg : List Byte
  proof : Nat
  requiredIterations : Int
  deriving DecidableEq, Repr

/-- The method `(*PoWork).GetMessage`. -/
def PoWork.GetMessage (p : PoWork) : List Byte := p.msg

/-- The method `(*PoWork).GetMessageString`: the conversion `string(p.msg)`
keeps the bytes. -/
def PoWork.GetMessageString (p : PoWork) : List Byte := p.GetMessage

/-- NewWorkerWithHash creates a new worker with the given hash (method set and
state). -/
def NewWorkerWithHash (h : Hash) (s : List Byte) : Worker :=
  { difficulty := 10, hashFn := h, hasher := s, maxWait := 5000 }

/-- The method `(*Worker).SetDifficulty`: the field is assigned before the range
test. -/
def Worker.SetDifficulty (p : Worker) (difficulty : Int) : Worker × Option GoError :=
  let p1 := { p with difficulty := difficulty }
  if difficulty ≤ 0 then
    (p1, some (GoError.new "Difficulty must be at least 1"))
  else
    (p1, none)

/-- The method `(*Worker).SetTimeout`: the field is assigned before the range
test. -/
def Worker.SetTimeout (p : Worker) (milliseconds : Int) : Worker × Option GoError :=
  let p1 := { p with maxWait := milliseconds }
  if p1.maxWait < 0 then
    (p1, some (GoError.new "Timeout must be greater than or equal to 0"))
  else
    (p1, none)

/-- The method `(*Worker).SetHasher`. -/
def Worker.SetHasher (p : Worker) (h : Hash) (s : List Byte) : Worker :=
  { p with hashFn := h, hasher := s }

/-- The bytes `binary.LittleEndian.PutUint64` stores for `v`: byte `i` is
`byte(v >> (8*i))`. -/
def putUint64 (v : Nat) : List Byte :=
  (List.range 8).map (fun i => (Fin.ofNat (v / 256 ^ i) : Byte))

/-- What `binary.Write(w, binary.LittleEndian, v)` does for a `uint64`: one
`Write` of the eight encoded bytes, whose error is returned. -/
def binaryWrite (h : Hash) (s : List Byte) (v : Nat) : List Byte × Option GoError :=
  h.Write s (putUint64 v)

/-- The outcome of scanning some bits: a verdict, or the remaining count `N`. -/
inductive Scan where
  | done (res : Bool)
  | more (N : Int)
  deriving DecidableEq, Repr

/-- The inner loop `for i := 0; i < 8; i++` on the byte `x`, with `k`
iterations left and the counter at `N`. `(x<<1)>>1 == x` is computed on 8 bits. -/
def scanByte : Nat → Nat → Int → Scan
  | 0, _, N => Scan.more N
  | k + 1, x, N =>
    if (x * 2 % 256) / 2 = x then
      let N1 := wrapInt (N - 1)
      let x1 := x * 2 % 256
      if N1 = 0 then Scan.done true else scanByte k x1 N1
    else
      Scan.done false

/-- The error of a search that ran out of time. -/
def errTimedOut : GoError := GoError.new "Timed out while calculating proof of work"

/-- The error of a scan that ran off the end of the digest. -/
def errBufferOverrun : GoError := GoError.new "Buffer overrun: not enough bits in hash"

/-- The outer loop `for _, x := range sum` and the statement after it. -/
def scanSum : List Byte → Int → Bool × Option GoError
  | [], _ => (false, some errBufferOverrun)
  | x :: rest, N =>
    match scanByte 8 x.val N with
    | Scan.done res => (res, none)
    | Scan.more N1 => scanSum rest N1

/-- The method `(*Worker).ValidatePoWork`: the Worker after the call (its hasher
has absorbed input) and the returned `(bool, error)`. -/
def Worker.ValidatePoWork (p : Worker) (pow : PoWork) :
    Worker × (Bool × Option GoError) :=
  let s0 := p.hashFn.Reset p.hasher
  match p.hashFn.Write s0 pow.msg with
  | (s1, some err) => ({ p with hasher := s1 }, (false, some err))
  | (s1, none) =>
    match binaryWrite p.hashFn s1 pow.proof with
    | (s2, some err) => ({ p with hasher := s2 }, (false, some err))
    | (s2, none) =>
      let sum := p.hashFn.Sum s2
      ({ p with hasher := s2 }, scanSum sum p.difficulty)

/-- The statements `toR.requiredIterations++; toR.proof++`. -/
def PoWork.next (toR : PoWork) : PoWork :=
  { toR with requiredIterations := wrapInt (toR.requiredIterations + 1),
             proof := wrapUint64 (toR.proof + 1) }

/-- The `for` loop of `DoProofFor`, from the state `(p, toR)` with `k` receives
on the timeout channel already attempted; `none` when the fuel runs out. -/
def searchLoop (fired : Nat → Bool) :
    Nat → Worker → PoWork → Nat → Option (Worker × (Option PoWork × Option GoError))
  | 0, _, _, _ => none
  | fuel + 1, p, toR, k =>
    match p.ValidatePoWork toR with
    | (p1, (_, some err)) => some (p1, (none, some err))
    | (p1, (true, none)) => some (p1, (some toR, none))
    | (p1, (false, none)) =>
      let toR1 := toR.next
      if fired k then
        some (p1, (none, some errTimedOut))
      else
        searchLoop fired fuel p1 toR1 (k + 1)

/-- The method `(*Worker).DoProofFor`: the Worker after the call and the returned
`(*PoWork, error)`. -/
def Worker.DoProofFor (p : Worker) (fired : Nat → Bool) (fuel : Nat)
    (msg : List Byte) : Option (Worker × (Option PoWork × Option GoError)) :=
  searchLoop fired fuel p { msg := msg, proof := 0, requiredIterations := 0 } 0

/-- The method `(*Worker).DoProofForString`: `[]byte(msg)` keeps the bytes. -/
def Worker.DoProofForString (p : Worker) (fired : Nat → Bool) (fuel : Nat)
    (msg : List Byte) : Option (Worker × (Option PoWork × Option GoError)) :=
  p.DoProofFor fired fuel msg

/-! ## Result channels -/

/-- The element type of the result channels, `struct { *PoWork; error }`. -/
abbrev Result := Option PoWork × Option GoError

/-- A Go channel of results: its capacity, the values in its buffer, oldest
first, whether it has been closed, and the values of the senders that wait in
`c <- v` for a receiver, oldest first. -/
structure Chan where
  cap : Nat
  pending : List Result
  closed : Bool
  parked : List Result := []
  deriving DecidableEq, Repr

/-- GetChannel returns a channel with the given buffer: `make(chan ..., buffer)`. -/
def GetChannel (buffer : Nat) : Chan :=
  { cap := buffer, pending := [], closed := false }

/-- The values that receives will get from the channel, in order: the buffer,
then the values of the waiting senders. -/
def Chan.queue (c : Chan) : List Result := c.pending ++ c.parked

/-- The statement `c <- v`. On an open channel the value goes into the buffer
when there is room; otherwise the sender waits with its value until a receive
takes it. A send on a closed channel panics: `none`. -/
def Chan.send (c : Chan) (v : Result) : Option Chan :=
  if c.closed then none
  else if c.pending.length < c.cap then some { c with pending := c.pending ++ [v] }
  else some { c with parked := c.parked ++ [v] }

/-- The statement `close(c)`; closing a closed channel panics, and so do the
senders that wait on a channel that is closed: `none`. -/
def Chan.close (c : Chan) : Option Chan :=
  if c.closed then none
  else if c.parked = [] then some { c with closed := true }
  else none

/-- The statement `v, ok := <-c`: the oldest buffered value with `ok = true`, the
oldest waiting sender then moving its value into the buffer; with an empty buffer
the value of the oldest waiting sender, handed over directly; on a closed and
drained channel the zero value with `ok = false`; `none` where the receive would
wait. -/
def Chan.recv (c : Chan) : Option ((Result × Bool) × Chan) :=
  match c.pending, c.parked with
  | v :: rest, w :: ws => some ((v, true), { c with pending := rest ++ [w], parked := ws })
  | v :: rest, [] => some ((v, true), { c with pending := rest })
  | [], w :: ws => some ((w, true), { c with parked := ws })
  | [], [] => if c.closed then some (((none, none), false), c) else none

/-- The first `n` receives on a channel, one after the other: what they yield
and the channel they leave; `none` when one of them would wait. -/
def Chan.recvN : Nat → Chan → Option (List (Result × Bool) × Chan)
  | 0, c => some ([], c)
  | n + 1, c =>
    match c.recv with
    | none => none
    | some (v, c1) =>
      match Chan.recvN n c1 with
      | none => none
      | some (vs, c2) => some (v :: vs, c2)

/-- The method `(*Worker).PrepareProof`: the Worker and the returned channel as
the goroutine leaves them, after `DoProofFor`, one send and `close`; `none` while
the goroutine has not finished. -/
def Worker.PrepareProof (p : Worker) (fired : Nat → Bool) (fuel : Nat) (msg : List Byte) :
    Option (Worker × Chan) :=
  let toR := GetChannel 1
  (p.DoProofFor fired fuel msg).bind (fun x =>
    (toR.send (x.2.1, x.2.2)).bind (fun c1 =>
      c1.close.map (fun c2 => (x.1, c2))))

/-- The method `(*Worker).SendProofToChannel`: the Worker and the channel `c` as
the goroutine leaves them, after `DoProofFor` and one send, which has put the
value in the buffer or waits with it for a receiver. -/
def Worker.SendProofToChannel (p : Worker) (fired : Nat → Bool) (fuel : Nat)
    (msg : List Byte) (c : Chan) : Option (Worker × Chan) :=
  (p.DoProofFor fired fuel msg).bind (fun x =>
    (c.send (x.2.1, x.2.2)).map (fun c1 => (x.1, c1)))

/-- Bit `i` of a digest, counting from the most significant bit of the first
byte: bit `i` lives in byte `i / 8` at weight `2 ^ (7 - i % 8)`. -/
def bitAt (digest : List Byte) (i : Nat) : Bool :=
  decide ((digest.getD (i / 8) 0).val / 2 ^ (7 - i % 8) % 2 = 1)

/-- No `Write` of the hash reports an error. -/
def Hash.WritesSucceed (h : Hash) : Prop :=
  ∀ s bs, h.writeErr s bs = none

/-- The verdict of validating nonce `nonce` for `msg` with hash `h` at difficulty
`d`: `ValidatePoWork` run on a Worker holding exactly that configuration. -/
def verdict (h : Hash) (d : Int) (msg : List Byte) (nonce : Nat) : Bool × Option GoError :=
  (Worker.ValidatePoWork { difficulty := d, hashFn := h, hasher := [], maxWait := 0 }
    { msg := msg, proof := nonce, requiredIterations := 0 }).2

/-- The scan of `ValidatePoWork` replayed on a list of bits (`true` is a one). -/
def scanBits : List Bool → Int → Scan
  | [], N => Scan.more N
  | b :: rest, N =>
    if b then Scan.done false
    else if wrapInt (N - 1) = 0 then Scan.done true
    else scanBits rest (wrapInt (N - 1))

/-- The eight bits of a byte, most significant first. -/
def byteBits (x : Nat) : List Bool :=
  (List.range' 0 8).map (fun i => decide (x / 2 ^ (7 - i) % 2 = 1))

/-- The bits of a digest in scan order. -/
def digestBits : List Byte → List Bool
  | [] => []
  | x :: rest => byteBits x.val ++ digestBits rest

/-- The number of zero bits before the first one bit. -/
def leadingZeros : List Bool → Nat
  | [] => 0
  | true :: _ => 0
  | false :: rest => leadingZeros rest + 1

/-- The value that eight bytes `b0 .. b7` encode in little-endian order: the sum
of `b_i * 256 ^ i`. -/
def leUint64 (bs : List Byte) : Nat :=
  ((List.range 8).map (fun i => (bs.getD i 0).val * 256 ^ i)).sum

/-- The Worker after `j` validations of successive candidates from `toR`. -/
def workerAfter : Nat → Worker → PoWork → Worker
  | 0, p, _ => p
  | j + 1, p, toR => workerAfter j (p.ValidatePoWork toR).1 toR.next

/-! ## Small hashes for worked examples -/

/-- A two-byte checksum: `17 * s + 200` and `s` modulo 256, for `s` the sum of
the input bytes. Its writes never fail. -/
def sumHash : Hash where
  digest := fun s =>
    [Fin.ofNat (17 * (s.map Fin.val).sum + 200), Fin.ofNat ((s.map Fin.val).sum)]
  writeErr := fun _ _ => none

/-- The checksum `sumHash` behind a writer that fails on the eight bytes that
encode the nonce 2, and on nothing else. -/
def brokenHash : Hash where
  digest := sumHash.digest
  writeErr := fun _ bs => if bs = putUint64 2 then some (GoError.hashWrite 5) else none

/-- A Worker on `sumHash` with difficulty 3. -/
def sumWorker : Worker :=
  { difficulty := 3, hashFn := sumHash, hasher := [], maxWait := 5000 }

/-- A Worker on `sumHash` whose difficulty, 100, exceeds the 16 bits of a digest. -/
def steepWorker : Worker :=
  { difficulty := 100, hashFn := sumHash, hasher := [], maxWait := 5000 }

/-- A one-byte checksum: the sum of the input bytes modulo 256. -/
def byteHash : Hash where
  digest := fun s => [Fin.ofNat ((s.map Fin.val).sum)]
  writeErr := fun _ _ => none

/-- A Worker on `byteHash` whose difficulty, 9, exceeds the 8 bits of a digest. -/
def tightWorker : Worker :=
  { difficulty := 9, hashFn := byteHash, hasher := [], maxWait := 5000 }

/-- A Worker on `brokenHash` with difficulty 3. -/
def brokenWorker : Worker :=
  { difficulty := 3, hashFn := brokenHash, hasher := [], maxWait := 5000 }

/-- A Worker on `sumHash` with difficulty 5. -/
def hardWorker : Worker :=
  { difficulty := 5, hashFn := sumHash, hasher := [], maxWait := 5000 }

/-! ## The bit scan -/

theorem scanByte_shift (k : Nat) : ∀ (j x : Nat) (N : Int), x < 256 → j + k = 8 →
    scanByte k (x * 2 ^ j % 256) N
      = scanBits ((List.range' j k).map (fun i => decide (x / 2 ^ (7 - i) % 2 = 1))) N := by
  induction k with
  | zero => intro j x N _ _; simp [scanByte, scanBits]
  | succ k ih =>
    intro j x N hx hj
    have hj7 : j ≤ 7 := by omega
    have hshift : x * 2 ^ j % 256 * 2 % 256 = x * 2 ^ (j + 1) % 256 := by
      have h1 : ∀ a : Nat, a % 256 * 2 % 256 = a * 2 % 256 := fun a => by omega
      rw [h1, pow_succ, Nat.mul_assoc]
    have hcond : (x * 2 ^ j % 256 * 2 % 256 / 2 = x * 2 ^ j % 256) ↔
        ¬ (x / 2 ^ (7 - j) % 2 = 1) := by
      interval_cases j <;> simp <;> omega
    simp only [scanByte, List.range'_succ, List.map_cons, scanBits]
    by_cases hb : x / 2 ^ (7 - j) % 2 = 1
    · have hn : ¬ (x * 2 ^ j % 256 * 2 % 256 / 2 = x * 2 ^ j % 256) := fun h => hcond.1 h hb
      simp only [hn, if_false, hb, decide_True, if_true]
    · have hp : x * 2 ^ j % 256 * 2 % 256 / 2 = x * 2 ^ j % 256 := hcond.2 hb
      simp only [hp, if_true, hb, decide_False, Bool.false_eq_true, if_false]
      rw [hshift, ih (j + 1) x _ hx (by omega)]

theorem scanByte_eq_scanBits (x : Nat) (N : Int) (hx : x < 256) :
    scanByte 8 x N = scanBits (byteBits x) N := by
  have h := scanByte_shift 8 0 x N hx (by omega)
  rw [pow_zero, Nat.mul_one, Nat.mod_eq_of_lt hx] at h
  exact h

theorem scanBits_append (a b : List Bool) : ∀ N : Int,
    scanBits (a ++ b) N
      = match scanBits a N with
        | Scan.done res => Scan.done res
        | Scan.more N1 => scanBits b N1 := by
  induction a with
  | nil => intro N; simp [scanBits]
  | cons c a ih =>
    intro N
    simp only [List.cons_append, scanBits]
    split_ifs <;> simp [ih]

theorem scanSum_eq_scanBits (digest : List Byte) : ∀ N : Int,
    scanSum digest N
      = match scanBits (digestBits digest) N with
        | Scan.done res => (res, none)
        | Scan.more _ => (false, some errBufferOverrun) := by
  induction digest with
  | nil => intro N; simp [scanSum, digestBits, scanBits, errBufferOverrun]
  | cons x rest ih =>
    intro N
    simp only [scanSum, digestBits, scanBits_append, scanByte_eq_scanBits x.val N x.isLt]
    cases hs : scanBits (byteBits x.val) N with
    | done res => simp
    | more N1 => simp [ih]

theorem scanBits_of_pos (bits : List Bool) : ∀ N : Int, 1 ≤ N → N < 9223372036854775808 →
    scanBits bits N
      = if N ≤ (leadingZeros bits : Int) then Scan.done true
        else if leadingZeros bits < bits.length then Scan.done false
        else Scan.more (N - bits.length) := by
  induction bits with
  | nil =>
    intro N h1 h2
    have hn : ¬ N ≤ 0 := by omega
    simp [scanBits, leadingZeros, hn]
  | cons b rest ih =>
    intro N h1 h2
    have hw : wrapInt (N - 1) = N - 1 := by unfold wrapInt; omega
    cases b with
    | true =>
      have hn : ¬ N ≤ 0 := by omega
      simp [scanBits, leadingZeros, hn]
    | false =>
      simp only [scanBits, leadingZeros, hw, Bool.false_eq_true, if_false, List.length_cons]
      by_cases h0 : N - 1 = 0
      · have hle : N ≤ ((leadingZeros rest + 1 : Nat) : Int) := by push_cast; omega
        rw [if_pos h0, if_pos hle]
      · rw [if_neg h0, ih (N - 1) (by omega) (by omega)]
        push_cast
        split_ifs <;> first | rfl | omega | (congr 1; omega)

theorem le_leadingZeros_iff (bits : List Bool) : ∀ n : Nat,
    n ≤ leadingZeros bits ↔ n ≤ bits.length ∧ ∀ i, i < n → bits.getD i true = false := by
  induction bits with
  | nil =>
    intro n
    simp only [leadingZeros, List.length_nil, Nat.le_zero_eq]
    exact ⟨fun h => ⟨h, fun i hi => by omega⟩, fun h => h.1⟩
  | cons b rest ih =>
    intro n
    cases b with
    | true =>
      simp only [leadingZeros, Nat.le_zero_eq, List.length_cons]
      constructor
      · intro h; subst h; simp
      · rintro ⟨_, h⟩
        by_contra hn
        have := h 0 (by omega)
        simp at this
    | false =>
      simp only [leadingZeros, List.length_cons]
      cases n with
      | zero => simp
      | succ m =>
        rw [Nat.succ_le_succ_iff, ih m, Nat.succ_le_succ_iff]
        constructor
        · rintro ⟨h1, h2⟩
          refine ⟨h1, fun i hi => ?_⟩
          cases i with
          | zero => simp
          | succ i => simpa using h2 i (by omega)
        · rintro ⟨h1, h2⟩
          exact ⟨h1, fun i hi => by simpa using h2 (i + 1) (by omega)⟩

theorem byteBits_length (x : Nat) : (byteBits x).length = 8 := by
  simp [byteBits]

theorem digestBits_length (digest : List Byte) :
    (digestBits digest).length = 8 * digest.length := by
  induction digest with
  | nil => rfl
  | cons x rest ih => simp [digestBits, byteBits_length, ih]; omega

theorem byteBits_getD (x i : Nat) (hi : i < 8) :
    (byteBits x).getD i true = decide (x / 2 ^ (7 - i) % 2 = 1) := by
  interval_cases i <;> simp [byteBits, List.range']

theorem digestBits_getD (digest : List Byte) : ∀ i : Nat, i < 8 * digest.length →
    (digestBits digest).getD i true = bitAt digest i := by
  induction digest with
  | nil => intro i hi; simp at hi
  | cons x rest ih =>
    intro i hi
    simp only [digestBits]
    by_cases h8 : i < 8
    · rw [List.getD_append _ _ _ _ (by rw [byteBits_length]; exact h8), byteBits_getD x.val i h8]
      have hd : i / 8 = 0 := by omega
      have hm : i % 8 = i := by omega
      simp [bitAt, hd, hm]
    · rw [List.getD_append_right _ _ _ _ (by rw [byteBits_length]; omega), byteBits_length,
        ih (i - 8) (by simp only [List.length_cons] at hi; omega)]
      have hd : i / 8 = (i - 8) / 8 + 1 := by omega
      have hm : i % 8 = (i - 8) % 8 := by omega
      simp [bitAt, hd, hm]

/-- The first `n` bits of the digest exist and are zero exactly when the scan
order has at least `n` leading zeros. -/
theorem le_leadingZeros_digestBits (digest : List Byte) (n : Nat) :
    n ≤ leadingZeros (digestBits digest)
      ↔ n ≤ 8 * digest.length ∧ ∀ i, i < n → bitAt digest i = false := by
  rw [le_leadingZeros_iff, digestBits_length]
  constructor
  · rintro ⟨h1, h2⟩
    exact ⟨h1, fun i hi => by rw [← digestBits_getD digest i (by omega)]; exact h2 i hi⟩
  · rintro ⟨h1, h2⟩
    exact ⟨h1, fun i hi => by rw [digestBits_getD digest i (by omega)]; exact h2 i hi⟩

/-! ## Facts about `ValidatePoWork` -/

theorem ValidatePoWork_snd (p : Worker) (pow : PoWork) :
    (p.ValidatePoWork pow).2 = verdict p.hashFn p.difficulty pow.msg pow.proof := by
  simp only [verdict, Worker.ValidatePoWork, Hash.Reset, Hash.Write, binaryWrite]
  rcases h1 : p.hashFn.writeErr [] pow.msg with _ | e1
  · simp only []
    rcases h2 : p.hashFn.writeErr ([] ++ pow.msg) (putUint64 pow.proof) with _ | e2 <;>
      simp only []
  · simp only []

theorem ValidatePoWork_config (p : Worker) (pow : PoWork) :
    (p.ValidatePoWork pow).1.difficulty = p.difficulty
      ∧ (p.ValidatePoWork pow).1.hashFn = p.hashFn
      ∧ (p.ValidatePoWork pow).1.maxWait = p.maxWait := by
  simp only [Worker.ValidatePoWork, Hash.Reset, Hash.Write, binaryWrite]
  rcases h1 : p.hashFn.writeErr [] pow.msg with _ | e1
  · simp only []
    rcases h2 : p.hashFn.writeErr ([] ++ pow.msg) (putUint64 pow.proof) with _ | e2 <;>
      simp only [and_self]
  · simp only [and_self]

/-- The verdict depends on the Worker only through its difficulty and its hash
algorithm, and on the proof only through its message and nonce. -/
theorem ValidatePoWork_snd_congr (p q : Worker) (pow pow1 : PoWork)
    (hd : q.difficulty = p.difficulty) (hh : q.hashFn = p.hashFn)
    (hm : pow1.msg = pow.msg) (hn : pow1.proof = pow.proof) :
    (q.ValidatePoWork pow1).2 = (p.ValidatePoWork pow).2 := by
  rw [ValidatePoWork_snd, ValidatePoWork_snd, hd, hh, hm, hn]

/-- The three ways a validation can end, by the errors of the two writes. -/
theorem verdict_cases (h : Hash) (d : Int) (msg : List Byte) (nonce : Nat) :
    verdict h d msg nonce
      = match h.writeErr [] msg with
        | some e => (false, some e)
        | none =>
          match h.writeErr msg (putUint64 nonce) with
          | some e => (false, some e)
          | none => scanSum (h.digest (msg ++ putUint64 nonce)) d := by
  simp only [verdict, Worker.ValidatePoWork, Hash.Reset, Hash.Write, Hash.Sum, binaryWrite,
    List.nil_append]
  rcases h1 : h.writeErr [] msg with _ | e1
  · simp only []
    rcases h2 : h.writeErr msg (putUint64 nonce) with _ | e2 <;> simp only []
  · simp only []

/-- With writes that succeed, the verdict is the scan of the digest of the
message followed by the encoded nonce. -/
theorem verdict_of_writes (h : Hash) (hw : h.WritesSucceed) (d : Int)
    (msg : List Byte) (nonce : Nat) :
    verdict h d msg nonce = scanSum (h.digest (msg ++ putUint64 nonce)) d := by
  rw [verdict_cases, hw [] msg, hw msg (putUint64 nonce)]

/-- An error never comes with a positive verdict. -/
theorem scanSum_err (digest : List Byte) (N : Int) (b : Bool) (e : GoError)
    (h : scanSum digest N = (b, some e)) : b = false ∧ e = errBufferOverrun := by
  rw [scanSum_eq_scanBits] at h
  cases hs : scanBits (digestBits digest) N with
  | done res => rw [hs] at h; simp at h
  | more N1 =>
    rw [hs] at h
    simp only [Prod.mk.injEq, Option.some.injEq] at h
    exact ⟨h.1.symm, h.2.symm⟩

theorem verdict_err (h : Hash) (d : Int) (msg : List Byte) (nonce : Nat) (b : Bool)
    (e : GoError) (hv : verdict h d msg nonce = (b, some e)) : b = false := by
  rw [verdict_cases] at hv
  rcases h1 : h.writeErr [] msg with _ | e1
  · rw [h1] at hv
    simp only [] at hv
    rcases h2 : h.writeErr msg (putUint64 nonce) with _ | e2
    · rw [h2] at hv
      exact (scanSum_err _ _ _ _ hv).1
    · rw [h2] at hv
      simp only [Prod.mk.injEq] at hv
      exact hv.1.symm
  · rw [h1] at hv
    simp only [Prod.mk.injEq] at hv
    exact hv.1.symm

/-- The verdict of a scan, for a difficulty in `1 .. 2^63 - 1`. -/
theorem scanSum_of_pos (digest : List Byte) (N : Int) (h1 : 1 ≤ N)
    (h2 : N < 9223372036854775808) :
    scanSum digest N
      = if N ≤ (leadingZeros (digestBits digest) : Int) then (true, none)
        else if leadingZeros (digestBits digest) < 8 * digest.length then (false, none)
        else (false, some errBufferOverrun) := by
  rw [scanSum_eq_scanBits, scanBits_of_pos _ N h1 h2, digestBits_length]
  split_ifs <;> rfl

/-! ## Facts about the search loop -/

theorem searchLoop_succ (fired : Nat → Bool) (fuel : Nat) (p : Worker) (toR : PoWork)
    (k : Nat) :
    searchLoop fired (fuel + 1) p toR k
      = match verdict p.hashFn p.difficulty toR.msg toR.proof with
        | (_, some err) => some ((p.ValidatePoWork toR).1, (none, some err))
        | (true, none) => some ((p.ValidatePoWork toR).1, (some toR, none))
        | (false, none) =>
          if fired k then some ((p.ValidatePoWork toR).1, (none, some errTimedOut))
          else searchLoop fired fuel (p.ValidatePoWork toR).1 toR.next (k + 1) := by
  rw [← ValidatePoWork_snd]
  simp only [searchLoop]
  rcases p.ValidatePoWork toR with ⟨p1, b, _ | e⟩ <;> cases b <;> rfl

theorem next_msg (toR : PoWork) : toR.next.msg = toR.msg := rfl

theorem iterate_next_msg (j : Nat) : ∀ toR : PoWork, (PoWork.next^[j] toR).msg = toR.msg := by
  induction j with
  | zero => intro toR; rfl
  | succ j ih => intro toR; rw [Function.iterate_succ_apply, ih, next_msg]

/-- The `j`-th candidate of a search: nonce `j mod 2^64`, counter `j` wrapped. -/
theorem iterate_next_start (msg : List Byte) (j : Nat) :
    (PoWork.next^[j] { msg := msg, proof := 0, requiredIterations := 0 }).proof
        = j % 18446744073709551616
      ∧ (PoWork.next^[j] { msg := msg, proof := 0, requiredIterations := 0 }).requiredIterations
        = wrapInt j := by
  induction j with
  | zero => exact ⟨rfl, rfl⟩
  | succ j ih =>
    rw [Function.iterate_succ_apply']
    obtain ⟨h1, h2⟩ := ih
    simp only [PoWork.next, h1, h2, wrapUint64, wrapInt]
    constructor
    · omega
    · push_cast; omega

/-- What a successful search went through: the returned proof is the `j`-th
candidate, it validates, and every earlier candidate was rejected without error
while the timer had not fired. -/
theorem searchLoop_success (fired : Nat → Bool) (fuel : Nat) :
    ∀ (p : Worker) (toR : PoWork) (k : Nat) (p1 : Worker) (pow : PoWork)
      (er : Option GoError),
      searchLoop fired fuel p toR k = some (p1, (some pow, er)) →
      er = none ∧ ∃ j, j < fuel ∧ pow = PoWork.next^[j] toR
        ∧ verdict p.hashFn p.difficulty toR.msg pow.proof = (true, none)
        ∧ ∀ i, i < j →
            verdict p.hashFn p.difficulty toR.msg (PoWork.next^[i] toR).proof = (false, none)
              ∧ fired (k + i) = false := by
  induction fuel with
  | zero => intro p toR k p1 pow er h; simp [searchLoop] at h
  | succ fuel ih =>
    intro p toR k p1 pow er h
    rw [searchLoop_succ] at h
    obtain ⟨hc1, hc2, _⟩ := ValidatePoWork_config p toR
    rcases hv : verdict p.hashFn p.difficulty toR.msg toR.proof with ⟨b, _ | e⟩
    · cases b with
      | true =>
        rw [hv] at h
        simp only [Option.some.injEq, Prod.mk.injEq] at h
        obtain ⟨_, h2, h3⟩ := h
        subst h2
        exact ⟨h3.symm, 0, Nat.succ_pos _, rfl, hv, fun i hi => absurd hi (Nat.not_lt_zero i)⟩
      | false =>
        rw [hv] at h
        simp only [] at h
        by_cases hf : fired k = true
        · rw [if_pos hf] at h
          simp at h
        · rw [if_neg hf] at h
          obtain ⟨h1, j, hj, hpow, hjv, hlt⟩ := ih _ _ _ _ _ _ h
          rw [hc1, hc2, next_msg] at hjv
          refine ⟨h1, j + 1, Nat.succ_lt_succ hj, ?_, hjv, ?_⟩
          · rw [Function.iterate_succ_apply]; exact hpow
          · intro i hi
            cases i with
            | zero => exact ⟨hv, by simpa using hf⟩
            | succ i =>
              have := hlt i (by omega)
              rw [hc1, hc2, next_msg, ← Function.iterate_succ_apply] at this
              refine ⟨this.1, ?_⟩
              have h2 := this.2
              rwa [Nat.add_assoc, Nat.add_comm 1 i] at h2
    · rw [hv] at h
      simp at h

/-- The search leaves the configuration of the Worker alone. -/
theorem searchLoop_config (fired : Nat → Bool) (fuel : Nat) :
    ∀ (p : Worker) (toR : PoWork) (k : Nat) (p1 : Worker)
      (r : Option PoWork × Option GoError),
      searchLoop fired fuel p toR k = some (p1, r) →
      p1.difficulty = p.difficulty ∧ p1.hashFn = p.hashFn ∧ p1.maxWait = p.maxWait := by
  induction fuel with
  | zero => intro p toR k p1 r h; simp [searchLoop] at h
  | succ fuel ih =>
    intro p toR k p1 r h
    rw [searchLoop_succ] at h
    have hc := ValidatePoWork_config p toR
    rcases hv : verdict p.hashFn p.difficulty toR.msg toR.proof with ⟨b, _ | e⟩
    · cases b with
      | true =>
        rw [hv] at h
        simp only [Option.some.injEq, Prod.mk.injEq] at h
        rw [← h.1]; exact hc
      | false =>
        rw [hv] at h
        simp only [] at h
        by_cases hf : fired k = true
        · rw [if_pos hf] at h
          simp only [Option.some.injEq, Prod.mk.injEq] at h
          rw [← h.1]; exact hc
        · rw [if_neg hf] at h
          obtain ⟨h1, h2, h3⟩ := ih _ _ _ _ _ h
          exact ⟨h1.trans hc.1, h2.trans hc.2.1, h3.trans hc.2.2⟩
    · rw [hv] at h
      simp only [Option.some.injEq, Prod.mk.injEq] at h
      rw [← h.1]; exact hc

/-- Every result of the loop is a proof without error or an error without
proof, and the error is that of a validation or the timeout. -/
theorem searchLoop_outcome (fired : Nat → Bool) (fuel : Nat) :
    ∀ (p : Worker) (toR : PoWork) (k : Nat) (p1 : Worker) (pr : Option PoWork)
      (er : Option GoError),
      searchLoop fired fuel p toR k = some (p1, (pr, er)) →
      (pr.isSome = true ∧ er = none) ∨ (pr = none ∧ er.isSome = true) := by
  induction fuel with
  | zero => intro p toR k p1 pr er h; simp [searchLoop] at h
  | succ fuel ih =>
    intro p toR k p1 pr er h
    rw [searchLoop_succ] at h
    rcases hv : verdict p.hashFn p.difficulty toR.msg toR.proof with ⟨b, _ | e⟩
    · cases b with
      | true =>
        rw [hv] at h
        simp only [Option.some.injEq, Prod.mk.injEq] at h
        left; rw [← h.2.1, ← h.2.2]; exact ⟨rfl, rfl⟩
      | false =>
        rw [hv] at h
        simp only [] at h
        by_cases hf : fired k = true
        · rw [if_pos hf] at h
          simp only [Option.some.injEq, Prod.mk.injEq] at h
          right; rw [← h.2.1, ← h.2.2]; exact ⟨rfl, rfl⟩
        · rw [if_neg hf] at h
          exact ih _ _ _ _ _ _ h
    · rw [hv] at h
      simp only [Option.some.injEq, Prod.mk.injEq] at h
      right; rw [← h.2.1, ← h.2.2]; exact ⟨rfl, rfl⟩

theorem workerAfter_config (j : Nat) : ∀ (p : Worker) (toR : PoWork),
    (workerAfter j p toR).difficulty = p.difficulty
      ∧ (workerAfter j p toR).hashFn = p.hashFn
      ∧ (workerAfter j p toR).maxWait = p.maxWait := by
  induction j with
  | zero => intro p toR; exact ⟨rfl, rfl, rfl⟩
  | succ j ih =>
    intro p toR
    obtain ⟨h1, h2, h3⟩ := ih (p.ValidatePoWork toR).1 toR.next
    obtain ⟨c1, c2, c3⟩ := ValidatePoWork_config p toR
    exact ⟨h1.trans c1, h2.trans c2, h3.trans c3⟩

/-- While candidates are rejected without error and the timer has not fired,
the loop moves on: `j` rejections use up `j` units of fuel. -/
theorem searchLoop_skip (fired : Nat → Bool) (j : Nat) :
    ∀ (p : Worker) (toR : PoWork) (k f : Nat),
      (∀ i, i < j →
        verdict p.hashFn p.difficulty toR.msg (PoWork.next^[i] toR).proof = (false, none)
          ∧ fired (k + i) = false) →
      searchLoop fired (j + f) p toR k
        = searchLoop fired f (workerAfter j p toR) (PoWork.next^[j] toR) (k + j) := by
  induction j with
  | zero => intro p toR k f _; simp [workerAfter]
  | succ j ih =>
    intro p toR k f h
    have h0 := h 0 (Nat.succ_pos j)
    obtain ⟨c1, c2, _⟩ := ValidatePoWork_config p toR
    have e : j + 1 + f = (j + f) + 1 := by omega
    rw [e, searchLoop_succ]
    have hv : verdict p.hashFn p.difficulty toR.msg toR.proof = (false, none) := h0.1
    have hf : fired k = false := by simpa using h0.2
    rw [hv]
    simp only [hf, Bool.false_eq_true, if_false]
    rw [ih (p.ValidatePoWork toR).1 toR.next (k + 1) f]
    · simp only [workerAfter, Function.iterate_succ_apply]
      have e2 : k + 1 + j = k + (j + 1) := by omega
      rw [e2]
    · intro i hi
      have := h (i + 1) (by omega)
      rw [c1, c2, next_msg, ← Function.iterate_succ_apply]
      refine ⟨this.1, ?_⟩
      have e3 : k + 1 + i = k + (i + 1) := by omega
      rw [e3]; exact this.2

theorem putUint64_length (v : Nat) : (putUint64 v).length = 8 := by
  simp [putUint64]

/-- Decoding undoes encoding on 64-bit values. -/
theorem leUint64_putUint64 (v : Nat) (hv : v < 18446744073709551616) :
    leUint64 (putUint64 v) = v := by
  simp only [leUint64, putUint64, List.range, List.range.loop, List.map_cons, List.map_nil,
    List.getD_cons_zero, List.getD_cons_succ, List.sum_cons, List.sum_nil, Fin.ofNat,
    pow_zero, pow_one]
  norm_num
  omega

/-- What a failed search went through: `j` candidates were rejected while the
timer had not fired, and then either the next rejection met a fired timer, or
the next validation reported an error. -/
theorem searchLoop_failure (fired : Nat → Bool) (fuel : Nat) :
    ∀ (p : Worker) (toR : PoWork) (k : Nat) (p1 : Worker) (er : Option GoError),
      searchLoop fired fuel p toR k = some (p1, (none, er)) →
      ∃ j, j < fuel
        ∧ (∀ i, i < j →
            verdict p.hashFn p.difficulty toR.msg (PoWork.next^[i] toR).proof = (false, none)
              ∧ fired (k + i) = false)
        ∧ ((verdict p.hashFn p.difficulty toR.msg (PoWork.next^[j] toR).proof = (false, none)
              ∧ fired (k + j) = true ∧ er = some errTimedOut)
            ∨ ∃ b e, verdict p.hashFn p.difficulty toR.msg (PoWork.next^[j] toR).proof
                = (b, some e) ∧ er = some e) := by
  induction fuel with
  | zero => intro p toR k p1 er h; simp [searchLoop] at h
  | succ fuel ih =>
    intro p toR k p1 er h
    rw [searchLoop_succ] at h
    obtain ⟨hc1, hc2, _⟩ := ValidatePoWork_config p toR
    rcases hv : verdict p.hashFn p.difficulty toR.msg toR.proof with ⟨b, _ | e⟩
    · cases b with
      | true =>
        rw [hv] at h
        simp at h
      | false =>
        rw [hv] at h
        simp only [] at h
        by_cases hf : fired k = true
        · rw [if_pos hf] at h
          simp only [Option.some.injEq, Prod.mk.injEq, true_and] at h
          exact ⟨0, Nat.succ_pos _, fun i hi => absurd hi (Nat.not_lt_zero i),
            Or.inl ⟨hv, hf, h.2.symm⟩⟩
        · rw [if_neg hf] at h
          obtain ⟨j, hj, hlt, hlast⟩ := ih _ _ _ _ _ h
          rw [hc1, hc2, next_msg, ← Function.iterate_succ_apply] at hlast
          refine ⟨j + 1, Nat.succ_lt_succ hj, ?_, ?_⟩
          · intro i hi
            cases i with
            | zero => exact ⟨hv, by simpa using hf⟩
            | succ i =>
              have := hlt i (by omega)
              rw [hc1, hc2, next_msg, ← Function.iterate_succ_apply] at this
              refine ⟨this.1, ?_⟩
              have h2 := this.2
              rwa [Nat.add_assoc, Nat.add_comm 1 i] at h2
          · have e3 : k + 1 + j = k + (j + 1) := by omega
            rw [e3] at hlast
            exact hlast
    · rw [hv] at h
      simp only [Option.some.injEq, Prod.mk.injEq, true_and] at h
      exact ⟨0, Nat.succ_pos _, fun i hi => absurd hi (Nat.not_lt_zero i),
        Or.inr ⟨b, e, hv, h.2.symm⟩⟩

theorem leadingZeros_le_length (bits : List Bool) : leadingZeros bits ≤ bits.length :=
  ((le_leadingZeros_iff bits (leadingZeros bits)).1 (Nat.le_refl _)).1

/-- The verdict of a scan whose difficulty exceeds the bits of the digest: never
positive; the overrun error exactly when every bit is zero. -/
theorem scanSum_of_large (digest : List Byte) (N : Int)
    (h1 : 8 * (digest.length : Int) < N) (h2 : N < 9223372036854775808) :
    scanSum digest N
      = if ∀ i, i < 8 * digest.length → bitAt digest i = false
        then (false, some errBufferOverrun) else (false, none) := by
  rw [scanSum_of_pos digest N (by omega) h2]
  have hle := leadingZeros_le_length (digestBits digest)
  rw [digestBits_length] at hle
  have key := le_leadingZeros_digestBits digest (8 * digest.length)
  rw [if_neg (by omega)]
  by_cases hall : ∀ i, i < 8 * digest.length → bitAt digest i = false
  · have := key.2 ⟨Nat.le_refl _, hall⟩
    rw [if_pos hall, if_neg (by omega)]
  · have : ¬ (8 * digest.length ≤ leadingZeros (digestBits digest)) := fun h => hall (key.1 h).2
    rw [if_neg hall, if_pos (by omega)]

theorem iterate_next_eq (msg : List Byte) (j : Nat) :
    PoWork.next^[j] { msg := msg, proof := 0, requiredIterations := 0 }
      = { msg := msg, proof := j % 18446744073709551616, requiredIterations := wrapInt j } := by
  have h1 := iterate_next_msg j { msg := msg, proof := 0, requiredIterations := 0 }
  obtain ⟨h2, h3⟩ := iterate_next_start msg j
  rcases hc : PoWork.next^[j] { msg := msg, proof := 0, requiredIterations := 0 }
    with ⟨m, n, it⟩
  rw [hc] at h1 h2 h3
  simp only [] at h1 h2 h3
  rw [h1, h2, h3]

/-- After `j` rejections while the timer has not fired, `DoProofFor` is at
candidate `j`. -/
theorem DoProofFor_at (p : Worker) (fired : Nat → Bool) (msg : List Byte) (j f : Nat)
    (hrej : ∀ i, i < j →
      (p.ValidatePoWork ⟨msg, i % 18446744073709551616, wrapInt i⟩).2 = (false, none)
        ∧ fired i = false) :
    p.DoProofFor fired (j + f) msg
      = searchLoop fired f (workerAfter j p ⟨msg, 0, 0⟩)
          ⟨msg, j % 18446744073709551616, wrapInt j⟩ j := by
  unfold Worker.DoProofFor
  rw [searchLoop_skip fired j p _ 0 f, iterate_next_eq, Nat.zero_add]
  intro i hi
  have := hrej i hi
  rw [ValidatePoWork_snd] at this
  rw [iterate_next_eq, Nat.zero_add]
  exact this

theorem sumHash_writesSucceed : sumHash.WritesSucceed := fun _ _ => rfl

theorem ValidatePoWork_hasher (p : Worker) (pow : PoWork)
    (hw : p.hashFn.writeErr [] pow.msg = none) :
    (p.ValidatePoWork pow).1.hasher = pow.msg ++ putUint64 pow.proof := by
  simp only [Worker.ValidatePoWork, Hash.Reset, Hash.Write, binaryWrite, hw, List.nil_append]
  rcases h2 : p.hashFn.writeErr pow.msg (putUint64 pow.proof) with _ | e2 <;> simp only []

/-- The counter reaches zero exactly when the value before wrapping is a
multiple of `2^64`. -/
theorem wrapInt_eq_zero_iff (z : Int) :
    wrapInt z = 0 ↔ z % 18446744073709551616 = 0 := by
  unfold wrapInt; omega

theorem wrapInt_wrapInt_sub (a b : Int) : wrapInt (wrapInt a - b) = wrapInt (a - b) := by
  unfold wrapInt; omega

/-- A scan during which the counter never reaches zero: it ends at the first one
bit, or runs through all the bits. -/
theorem scanBits_of_noZero (bits : List Bool) : ∀ N : Int,
    -9223372036854775808 ≤ N → N < 9223372036854775808 →
    (∀ j : Nat, 1 ≤ j → j ≤ bits.length → (N - j) % 18446744073709551616 ≠ 0) →
    scanBits bits N
      = if leadingZeros bits < bits.length then Scan.done false
        else Scan.more (wrapInt (N - bits.length)) := by
  induction bits with
  | nil =>
    intro N hlo hhi _
    have hw : wrapInt N = N := by unfold wrapInt; omega
    simp only [scanBits, leadingZeros, List.length_nil, Nat.lt_irrefl, if_false,
      Nat.cast_zero, sub_zero, hw]
  | cons b rest ih =>
    intro N hlo hhi h
    cases b with
    | true => simp [scanBits, leadingZeros]
    | false =>
      have h1 : ¬ wrapInt (N - 1) = 0 := by
        rw [wrapInt_eq_zero_iff]
        have := h 1 (Nat.le_refl 1) (by simp)
        simpa using this
      simp only [scanBits, leadingZeros, Bool.false_eq_true, if_false, h1, List.length_cons]
      rw [ih (wrapInt (N - 1)) (by unfold wrapInt; omega) (by unfold wrapInt; omega)]
      · rw [wrapInt_wrapInt_sub]
        have e : N - 1 - (rest.length : Int) = N - ((rest.length + 1 : Nat) : Int) := by
          push_cast; omega
        rw [e]
        split_ifs <;> first | rfl | omega
      · intro j hj1 hj2
        have := h (j + 1) (by omega) (by simp; omega)
        unfold wrapInt
        push_cast at this
        omega

/-- Some bit of the digest is one exactly when the leading zeros stop short of
its end. -/
theorem leadingZeros_lt_iff (digest : List Byte) :
    leadingZeros (digestBits digest) < 8 * digest.length
      ↔ ¬ ∀ i, i < 8 * digest.length → bitAt digest i = false := by
  have hle := leadingZeros_le_length (digestBits digest)
  rw [digestBits_length] at hle
  have key := le_leadingZeros_digestBits digest (8 * digest.length)
  constructor
  · intro hlt hall
    have := key.2 ⟨Nat.le_refl _, hall⟩
    omega
  · intro hn
    by_contra hge
    exact hn (key.1 (by omega)).2

/-- The verdict of a scan whose difficulty is zero or negative, on a digest of
fewer than `2^63` bits: never positive; the overrun error exactly when every bit
is zero. -/
theorem scanSum_of_nonpos (digest : List Byte) (N : Int)
    (hlo : -9223372036854775808 ≤ N) (h0 : N ≤ 0)
    (hlen : 8 * digest.length < 9223372036854775808) :
    scanSum digest N
      = if ∀ i, i < 8 * digest.length → bitAt digest i = false
        then (false, some errBufferOverrun) else (false, none) := by
  rw [scanSum_eq_scanBits, scanBits_of_noZero _ N hlo (by omega)]
  · rw [digestBits_length]
    by_cases hall : ∀ i, i < 8 * digest.length → bitAt digest i = false
    · have : ¬ leadingZeros (digestBits digest) < 8 * digest.length := fun h =>
        (leadingZeros_lt_iff digest).1 h hall
      rw [if_pos hall, if_neg this]
    · rw [if_neg hall, if_pos ((leadingZeros_lt_iff digest).2 hall)]
  · intro j hj1 hj2
    rw [digestBits_length] at hj2
    omega

/-- When a validation accepts, for a difficulty in `1 .. 2^63 - 1`: both writes
succeeded and the digest has at least that many leading zero bits. -/
theorem verdict_true_iff (h : Hash) (d : Int) (msg : List Byte) (nonce : Nat)
    (hd1 : 1 ≤ d) (hd2 : d < 9223372036854775808) :
    verdict h d msg nonce = (true, none)
      ↔ h.writeErr [] msg = none ∧ h.writeErr msg (putUint64 nonce) = none
          ∧ d ≤ (leadingZeros (digestBits (h.digest (msg ++ putUint64 nonce))) : Int) := by
  rw [verdict_cases]
  rcases h1 : h.writeErr [] msg with _ | e1
  · rcases h2 : h.writeErr msg (putUint64 nonce) with _ | e2
    · simp only [true_and]
      rw [scanSum_of_pos _ _ hd1 hd2]
      split_ifs with ha hb <;> simp [ha]
    · simp
  · simp

/-- Lowering the difficulty keeps an accepting verdict. -/
theorem verdict_true_of_le (h : Hash) (d1 d2 : Int) (msg : List Byte) (nonce : Nat)
    (h1 : 1 ≤ d1) (h12 : d1 ≤ d2) (h2 : d2 < 9223372036854775808)
    (hv : verdict h d2 msg nonce = (true, none)) :
    verdict h d1 msg nonce = (true, none) := by
  rw [verdict_true_iff _ _ _ _ (by omega) h2] at hv
  rw [verdict_true_iff _ _ _ _ h1 (by omega)]
  exact ⟨hv.1, hv.2.1, by omega⟩

/-- Once the timer fires the loop has returned: `n + 1` validations are enough
when the receive number `k + n` finds the timer fired. -/
theorem searchLoop_terminates (fired : Nat → Bool) (n : Nat) :
    ∀ (p : Worker) (toR : PoWork) (k : Nat), fired (k + n) = true →
      (searchLoop fired (n + 1) p toR k).isSome = true := by
  induction n with
  | zero =>
    intro p toR k hf
    rw [searchLoop_succ]
    rcases hv : verdict p.hashFn p.difficulty toR.msg toR.proof with ⟨b, _ | e⟩
    · cases b with
      | true => rfl
      | false =>
        simp only []
        rw [Nat.add_zero] at hf
        rw [if_pos hf]; rfl
    · cases b <;> rfl
  | succ n ih =>
    intro p toR k hf
    rw [searchLoop_succ]
    rcases hv : verdict p.hashFn p.difficulty toR.msg toR.proof with ⟨b, _ | e⟩
    · cases b with
      | true => rfl
      | false =>
        simp only []
        by_cases hk : fired k = true
        · rw [if_pos hk]; rfl
        · rw [if_neg hk]
          apply ih
          have e : k + 1 + n = k + (n + 1) := by omega
          rw [e]; exact hf
    · cases b <;> rfl

/-- More fuel does not change a result. -/
theorem searchLoop_mono (fired : Nat → Bool) (fuel : Nat) :
    ∀ (p : Worker) (toR : PoWork) (k : Nat)
      (r : Worker × (Option PoWork × Option GoError)) (f : Nat),
      searchLoop fired fuel p toR k = some r →
      searchLoop fired (fuel + f) p toR k = some r := by
  induction fuel with
  | zero => intro p toR k r f h; simp [searchLoop] at h
  | succ fuel ih =>
    intro p toR k r f h
    have e : fuel + 1 + f = (fuel + f) + 1 := by omega
    rw [e, searchLoop_succ]
    rw [searchLoop_succ] at h
    rcases hv : verdict p.hashFn p.difficulty toR.msg toR.proof with ⟨b, _ | e⟩
    · cases b with
      | true => rw [hv] at h; exact h
      | false =>
        rw [hv] at h
        simp only [] at h ⊢
        by_cases hk : fired k = true
        · rw [if_pos hk] at h ⊢; exact h
        · rw [if_neg hk] at h ⊢
          exact ih _ _ _ _ _ h
    · rw [hv] at h; cases b <;> exact h

/-- The shape of a successful search: the proof is candidate `j`, it validates,
and every smaller nonce was rejected without error. -/
theorem DoProofFor_success_shape (p : Worker) (fired : Nat → Bool) (fuel : Nat)
    (msg : List Byte) (p1 : Worker) (pow : PoWork) (er : Option GoError)
    (h : p.DoProofFor fired fuel msg = some (p1, (some pow, er))) :
    er = none ∧ ∃ j, j < fuel
      ∧ pow = ⟨msg, j % 18446744073709551616, wrapInt j⟩
      ∧ verdict p.hashFn p.difficulty msg pow.proof = (true, none)
      ∧ (∀ k, k < pow.proof → verdict p.hashFn p.difficulty msg k = (false, none))
      ∧ ∀ i, i < j → fired i = false := by
  obtain ⟨he, j, hj, hpow, hv, hlt⟩ := searchLoop_success fired fuel p _ 0 p1 pow er h
  rw [iterate_next_eq] at hpow
  refine ⟨he, j, hj, hpow, hv, ?_, ?_⟩
  · intro k hk
    rw [hpow] at hk
    simp only [] at hk
    have hkj : k < j := by
      have := Nat.mod_le j 18446744073709551616
      omega
    have hk64 : k % 18446744073709551616 = k := by
      apply Nat.mod_eq_of_lt
      have := Nat.mod_lt j (show 18446744073709551616 > 0 by decide)
      omega
    have := (hlt k hkj).1
    rw [iterate_next_eq] at this
    simp only [hk64] at this
    exact this
  · intro i hi
    have := (hlt i hi).2
    rwa [Nat.zero_add] at this

/-- With a difficulty of zero or less (a 64-bit `int`) and a digest of fewer than
`2^63` bits, no validation accepts. -/
theorem verdict_of_nonpos (h : Hash) (d : Int) (msg : List Byte) (nonce : Nat)
    (hlo : -9223372036854775808 ≤ d) (h0 : d ≤ 0)
    (hlen : 8 * (h.digest (msg ++ putUint64 nonce)).length < 9223372036854775808) :
    (verdict h d msg nonce).1 = false := by
  rw [verdict_cases]
  rcases h1 : h.writeErr [] msg with _ | e1
  · rcases h2 : h.writeErr msg (putUint64 nonce) with _ | e2
    · simp only []
      rw [scanSum_of_nonpos _ _ hlo h0 hlen]
      split_ifs <;> rfl
    · rfl
  · rfl

theorem SetDifficulty_fst (q : Worker) (v : Int) :
    (q.SetDifficulty v).1 = { q with difficulty := v } := by
  unfold Worker.SetDifficulty
  split_ifs <;> rfl

theorem SetTimeout_fst (q : Worker) (v : Int) :
    (q.SetTimeout v).1 = { q with maxWait := v } := by
  unfold Worker.SetTimeout
  by_cases h : v < 0
  · simp only [h, if_true]
  · simp only [h, if_false]

theorem sumHash_digest_short (data : List Byte) :
    8 * (sumWorker.hashFn.digest data).length < 9223372036854775808 := by
  simp [sumWorker, sumHash]

/-- When the timer fires at some receive, `DoProofFor` has returned by then, and
more fuel gives the same result. -/
theorem DoProofFor_terminates (p : Worker) (fired : Nat → Bool) (msg : List Byte) (k : Nat)
    (hk : fired k = true) :
    ∃ p1 r, ∀ f, p.DoProofFor fired (k + 1 + f) msg = some (p1, r) := by
  have h := searchLoop_terminates fired k p ⟨msg, 0, 0⟩ 0 (by rw [Nat.zero_add]; exact hk)
  rcases hr : searchLoop fired (k + 1) p ⟨msg, 0, 0⟩ 0 with _ | ⟨p1, r⟩
  · rw [hr] at h; exact absurd h (by simp)
  · exact ⟨p1, r, fun f => searchLoop_mono fired (k + 1) p _ 0 _ f hr⟩

/-- A receive takes the head of the queue and leaves its tail. -/
theorem Chan.recv_of_queue (c : Chan) (v : Result) (rest : List Result)
    (h : c.queue = v :: rest) :
    ∃ c1, c.recv = some ((v, true), c1) ∧ c1.queue = rest ∧ c1.closed = c.closed
      ∧ c1.cap = c.cap := by
  obtain ⟨cap, pending, closed, parked⟩ := c
  simp only [Chan.queue] at h
  cases pending with
  | nil =>
    cases parked with
    | nil => simp at h
    | cons w ws =>
      simp only [List.nil_append, List.cons.injEq] at h
      obtain ⟨hw, hws⟩ := h
      subst hw; subst hws
      exact ⟨_, rfl, rfl, rfl, rfl⟩
  | cons u us =>
    simp only [List.cons_append, List.cons.injEq] at h
    obtain ⟨hu, hus⟩ := h
    subst hu; subst hus
    cases parked with
    | nil => exact ⟨_, rfl, rfl, rfl, rfl⟩
    | cons w ws =>
      refine ⟨_, rfl, ?_, rfl, rfl⟩
      simp [Chan.queue]

/-- As many receives as the queue is long yield the queue, in order, each with
`ok = true`, and leave nothing to receive. -/
theorem Chan.recvN_queue (q : List Result) : ∀ c : Chan, c.queue = q →
    ∃ c2, c.recvN q.length = some (q.map (fun v => (v, true)), c2) ∧ c2.queue = []
      ∧ c2.closed = c.closed ∧ c2.cap = c.cap := by
  induction q with
  | nil => intro c h; exact ⟨c, rfl, h, rfl, rfl⟩
  | cons v rest ih =>
    intro c h
    obtain ⟨c1, h1, h2, h3, h4⟩ := Chan.recv_of_queue c v rest h
    obtain ⟨c2, g1, g2, g3, g4⟩ := ih c1 h2
    refine ⟨c2, ?_, g2, g3.trans h3, g4.trans h4⟩
    simp only [List.length_cons, Chan.recvN, h1, g1, List.map_cons]

/-- A send on an open channel always leaves its value to be received: in the
buffer when there is room, with the waiting senders otherwise. -/
theorem Chan.send_open (c : Chan) (v : Result) (hopen : c.closed = false) :
    ∃ c1, c.send v = some c1 ∧ c1.closed = false ∧ c1.cap = c.cap
      ∧ c1.queue.Perm (v :: c.queue)
      ∧ ((c.parked = [] ∨ c.cap ≤ c.pending.length) → c1.queue = c.queue ++ [v])
      ∧ (c.pending.length < c.cap → c1 = { c with pending := c.pending ++ [v] }) := by
  have hc : ¬ (c.closed = true) := by rw [hopen]; exact Bool.false_ne_true
  unfold Chan.send
  rw [if_neg hc]
  by_cases hroom : c.pending.length < c.cap
  · rw [if_pos hroom]
    refine ⟨_, rfl, hopen, rfl, ?_, ?_, fun _ => rfl⟩
    · simp only [Chan.queue]
      have h1 : (c.pending ++ [v] ++ c.parked).Perm (c.pending ++ ([v] ++ c.parked)) := by
        rw [List.append_assoc]
      refine h1.trans ?_
      exact (List.perm_middle).trans (List.Perm.refl _)
    · intro h
      rcases h with h | h
      · simp [Chan.queue, h]
      · omega
  · rw [if_neg hroom]
    refine ⟨_, rfl, hopen, rfl, ?_, fun _ => ?_, fun h => absurd h hroom⟩
    · simp only [Chan.queue]
      rw [← List.append_assoc]
      exact List.perm_append_singleton v (c.pending ++ c.parked)
    · simp [Chan.queue]

/-! ## The claims -/

/-- C1: for a hash whose writes do not fail and a configured difficulty `d ≥ 1`
(a 64-bit `int`), `ValidatePoWork` returns `(true, nil)` if and only if
`d ≤ 8 * len(digest)` and the first `d` bits of
`digest = Hash(message || LE8(nonce))`, read most significant bit first from the
first byte, are all zero. -/
theorem ValidatePoWork_true_iff_leading_bits_zero (p : Worker) (pow : PoWork)
    (hw : p.hashFn.WritesSucceed)
    (hd1 : 1 ≤ p.difficulty) (hd2 : p.difficulty < 9223372036854775808) :
    (p.ValidatePoWork pow).2 = (true, none)
      ↔ (p.difficulty ≤ 8 * ((p.hashFn.digest (pow.msg ++ putUint64 pow.proof)).length : Int)
          ∧ ∀ i : Nat, (i : Int) < p.difficulty →
              bitAt (p.hashFn.digest (pow.msg ++ putUint64 pow.proof)) i = false) := by
  rw [ValidatePoWork_snd, verdict_of_writes _ hw, scanSum_of_pos _ _ hd1 hd2]
  generalize p.hashFn.digest (pow.msg ++ putUint64 pow.proof) = digest
  obtain ⟨n, hn⟩ : ∃ n : Nat, p.difficulty = n := ⟨p.difficulty.toNat, by omega⟩
  have key := le_leadingZeros_digestBits digest n
  rw [hn]
  have e1 : ((n : Int) ≤ (leadingZeros (digestBits digest) : Int))
      ↔ n ≤ leadingZeros (digestBits digest) := by omega
  have e2 : ((n : Int) ≤ 8 * (digest.length : Int)) ↔ n ≤ 8 * digest.length := by omega
  have e3 : (∀ i : Nat, (i : Int) < (n : Int) → bitAt digest i = false)
      ↔ ∀ i, i < n → bitAt digest i = false :=
    ⟨fun h i hi => h i (by omega), fun h i hi => h i (by omega)⟩
  rw [e2, e3, ← key, ← e1]
  split_ifs with ha hb <;> simp [ha]

theorem ValidatePoWork_true_iff_leading_bits_zero_witness :
    (sumWorker.hashFn.WritesSucceed ∧ 1 ≤ sumWorker.difficulty
        ∧ sumWorker.difficulty < 9223372036854775808)
      ∧ (sumWorker.ValidatePoWork ⟨[1], 3, 0⟩).2 = (true, none)
      ∧ ((sumWorker.ValidatePoWork ⟨[1], 3, 0⟩).2 = (true, none)
        ↔ (sumWorker.difficulty
              ≤ 8 * ((sumWorker.hashFn.digest ([1] ++ putUint64 3)).length : Int)
            ∧ ∀ i : Nat, (i : Int) < sumWorker.difficulty →
                bitAt (sumWorker.hashFn.digest ([1] ++ putUint64 3)) i = false)) :=
  ⟨⟨sumHash_writesSucceed, by decide, by decide⟩, by decide,
    ValidatePoWork_true_iff_leading_bits_zero sumWorker ⟨[1], 3, 0⟩
      sumHash_writesSucceed (by decide) (by decide)⟩

/-- C2: round trip. If `DoProofFor(msg)` returns a proof with a nil error, then
`ValidatePoWork` on that proof returns `(true, nil)`: on the Worker as the
search left it, and on every Worker with the same difficulty and hash. -/
theorem DoProofFor_roundtrip (p : Worker) (fired : Nat → Bool) (fuel : Nat)
    (msg : List Byte) (p1 : Worker) (pow : PoWork)
    (h : p.DoProofFor fired fuel msg = some (p1, (some pow, none))) :
    (p1.ValidatePoWork pow).2 = (true, none)
      ∧ ∀ q : Worker, q.difficulty = p.difficulty → q.hashFn = p.hashFn →
          (q.ValidatePoWork pow).2 = (true, none) := by
  obtain ⟨_, j, _, hpow, hv, _⟩ := searchLoop_success fired fuel p _ 0 p1 pow none h
  obtain ⟨c1, c2, _⟩ := searchLoop_config fired fuel p _ 0 p1 _ h
  have hm : pow.msg = msg := by rw [hpow, iterate_next_msg]
  have key : ∀ q : Worker, q.difficulty = p.difficulty → q.hashFn = p.hashFn →
      (q.ValidatePoWork pow).2 = (true, none) := by
    intro q hd hh
    rw [ValidatePoWork_snd, hd, hh, hm]
    exact hv
  exact ⟨key p1 c1 c2, key⟩

theorem DoProofFor_roundtrip_witness :
    sumWorker.DoProofFor (fun _ => false) 20 [9]
        = some ({ sumWorker with hasher := [9] ++ putUint64 10 }, (some ⟨[9], 10, 10⟩, none))
      ∧ (({ sumWorker with hasher := [9] ++ putUint64 10 } : Worker).ValidatePoWork
            ⟨[9], 10, 10⟩).2 = (true, none)
      ∧ ∀ q : Worker, q.difficulty = sumWorker.difficulty → q.hashFn = sumWorker.hashFn →
          (q.ValidatePoWork ⟨[9], 10, 10⟩).2 = (true, none) :=
  ⟨rfl, DoProofFor_roundtrip sumWorker (fun _ => false) 20 [9] _ ⟨[9], 10, 10⟩ rfl⟩

/-- C3: the byte sequence `ValidatePoWork` hands to the hash after resetting it
(when the hash accepts the message) is the message followed by exactly 8 bytes
`b0 .. b7` with `nonce = Σ b_i * 256^i`; it has length `len(message) + 8`, and
distinct nonces give distinct payloads for the same message. -/
theorem ValidatePoWork_payload (p : Worker) (pow : PoWork)
    (hn : pow.proof < 18446744073709551616) (hw : p.hashFn.writeErr [] pow.msg = none) :
    (p.ValidatePoWork pow).1.hasher = pow.msg ++ putUint64 pow.proof
      ∧ (putUint64 pow.proof).length = 8
      ∧ leUint64 (putUint64 pow.proof) = pow.proof
      ∧ (p.ValidatePoWork pow).1.hasher.length = pow.msg.length + 8
      ∧ ∀ pow1 : PoWork, pow1.msg = pow.msg → pow1.proof < 18446744073709551616 →
          pow1.proof ≠ pow.proof →
          (p.ValidatePoWork pow1).1.hasher ≠ (p.ValidatePoWork pow).1.hasher := by
  have hh := ValidatePoWork_hasher p pow hw
  refine ⟨hh, putUint64_length _, leUint64_putUint64 _ hn, ?_, ?_⟩
  · rw [hh, List.length_append, putUint64_length]
  · intro pow1 hm hn1 hne heq
    rw [hh, ValidatePoWork_hasher p pow1 (by rw [hm]; exact hw), hm] at heq
    have h8 := List.append_cancel_left heq
    apply hne
    rw [← leUint64_putUint64 _ hn1, ← leUint64_putUint64 _ hn, h8]

theorem ValidatePoWork_payload_witness :
    ((258 : Nat) < 18446744073709551616 ∧ sumWorker.hashFn.writeErr [] [5, 6] = none)
      ∧ (sumWorker.ValidatePoWork ⟨[5, 6], 258, 0⟩).1.hasher
          = [5, 6] ++ [2, 1, 0, 0, 0, 0, 0, 0]
      ∧ (sumWorker.ValidatePoWork ⟨[5, 6], 258, 0⟩).1.hasher = [5, 6] ++ putUint64 258
      ∧ (putUint64 258).length = 8
      ∧ leUint64 (putUint64 258) = 258
      ∧ (sumWorker.ValidatePoWork ⟨[5, 6], 258, 0⟩).1.hasher.length = [5, 6].length + 8
      ∧ ∀ pow1 : PoWork, pow1.msg = [5, 6] → pow1.proof < 18446744073709551616 →
          pow1.proof ≠ 258 →
          (sumWorker.ValidatePoWork pow1).1.hasher
            ≠ (sumWorker.ValidatePoWork ⟨[5, 6], 258, 0⟩).1.hasher :=
  ⟨⟨by decide, rfl⟩, by decide,
    ValidatePoWork_payload sumWorker ⟨[5, 6], 258, 0⟩ (by decide) rfl⟩

/-- C4: nonces are tried in increasing order from 0. Whenever `DoProofFor(msg)`
returns a proof with nonce `n`, `ValidatePoWork` reports `(false, nil)` for every
nonce `k < n` and `(true, nil)` for `n`, with the same message and configuration:
`n` is the least qualifying nonce. -/
theorem DoProofFor_least_nonce (p : Worker) (fired : Nat → Bool) (fuel : Nat)
    (msg : List Byte) (p1 : Worker) (pow : PoWork)
    (h : p.DoProofFor fired fuel msg = some (p1, (some pow, none))) :
    pow.msg = msg
      ∧ ∀ q : Worker, q.difficulty = p.difficulty → q.hashFn = p.hashFn →
          (q.ValidatePoWork pow).2 = (true, none)
            ∧ ∀ k : Nat, k < pow.proof → ∀ it : Int,
                (q.ValidatePoWork ⟨msg, k, it⟩).2 = (false, none) := by
  obtain ⟨_, j, _, hpow, hv, hlt⟩ := searchLoop_success fired fuel p _ 0 p1 pow none h
  have hm : pow.msg = msg := by rw [hpow, iterate_next_msg]
  have hp : pow.proof = j % 18446744073709551616 := by
    rw [hpow]; exact (iterate_next_start msg j).1
  refine ⟨hm, fun q hd hh => ⟨?_, ?_⟩⟩
  · rw [ValidatePoWork_snd, hd, hh, hm]; exact hv
  · intro k hk it
    have hkj : k < j := by
      have := Nat.mod_le j 18446744073709551616
      omega
    have hk64 : k % 18446744073709551616 = k := by
      apply Nat.mod_eq_of_lt
      have := Nat.mod_lt j (show 18446744073709551616 > 0 by decide)
      omega
    have := (hlt k hkj).1
    rw [(iterate_next_start msg k).1, hk64] at this
    rw [ValidatePoWork_snd, hd, hh]
    exact this

theorem DoProofFor_least_nonce_witness :
    sumWorker.DoProofFor (fun _ => false) 8 []
        = some ({ sumWorker with hasher := putUint64 4 }, (some ⟨[], 4, 4⟩, none))
      ∧ (⟨[], 4, 4⟩ : PoWork).msg = []
      ∧ ∀ q : Worker, q.difficulty = sumWorker.difficulty → q.hashFn = sumWorker.hashFn →
          (q.ValidatePoWork ⟨[], 4, 4⟩).2 = (true, none)
            ∧ ∀ k : Nat, k < (⟨[], 4, 4⟩ : PoWork).proof → ∀ it : Int,
                (q.ValidatePoWork ⟨[], k, it⟩).2 = (false, none) :=
  ⟨rfl, DoProofFor_least_nonce sumWorker (fun _ => false) 8 [] _ ⟨[], 4, 4⟩ rfl⟩

/-- C5 (as stated, refuted): with difficulty 100 on a 16-bit digest whose first
bit is one, `ValidatePoWork` returns the ordinary negative result `(false, nil)`,
and a search whose timer has fired ends with the timeout error, which is not the
configuration error. -/
theorem difficulty_above_digest_bits_counterexample :
    8 * ((steepWorker.hashFn.digest ([] ++ putUint64 0)).length : Int)
        < steepWorker.difficulty
      ∧ (steepWorker.ValidatePoWork ⟨[], 0, 0⟩).2 = (false, none)
      ∧ (steepWorker.DoProofFor (fun _ => true) 1 []).map Prod.snd
          = some (none, some errTimedOut)
      ∧ errTimedOut ≠ errBufferOverrun := by
  decide

/-- C5 (amended): for a hash whose writes do not fail, when the difficulty
exceeds the digest's bit length, `ValidatePoWork` never returns true: it reports
the "not enough bits" error when every bit of the digest is zero and the ordinary
negative result `(false, nil)` when the digest has a one bit. A search for a
message all of whose digests are that short never returns a proof: it ends with
that error or with the timeout error. -/
theorem ValidatePoWork_difficulty_above_digest_bits (p : Worker)
    (hw : p.hashFn.WritesSucceed) (hd2 : p.difficulty < 9223372036854775808) :
    (∀ pow : PoWork,
        8 * ((p.hashFn.digest (pow.msg ++ putUint64 pow.proof)).length : Int) < p.difficulty →
        ((∀ i, i < 8 * (p.hashFn.digest (pow.msg ++ putUint64 pow.proof)).length →
              bitAt (p.hashFn.digest (pow.msg ++ putUint64 pow.proof)) i = false) →
            (p.ValidatePoWork pow).2 = (false, some errBufferOverrun))
          ∧ ((∃ i, i < 8 * (p.hashFn.digest (pow.msg ++ putUint64 pow.proof)).length
                ∧ bitAt (p.hashFn.digest (pow.msg ++ putUint64 pow.proof)) i = true) →
            (p.ValidatePoWork pow).2 = (false, none)))
      ∧ ∀ msg : List Byte,
          (∀ n : Nat, 8 * ((p.hashFn.digest (msg ++ putUint64 n)).length : Int)
            < p.difficulty) →
          ∀ (fired : Nat → Bool) (fuel : Nat) (p1 : Worker) (pr : Option PoWork)
            (er : Option GoError),
            p.DoProofFor fired fuel msg = some (p1, (pr, er)) →
            pr = none ∧ (er = some errBufferOverrun ∨ er = some errTimedOut) := by
  constructor
  · intro pow hd
    rw [ValidatePoWork_snd, verdict_of_writes _ hw, scanSum_of_large _ _ hd hd2]
    constructor
    · intro hall; rw [if_pos hall]
    · rintro ⟨i, hi, hbit⟩
      rw [if_neg]
      intro hall
      rw [hall i hi] at hbit
      exact Bool.noConfusion hbit
  · intro msg hlen fired fuel p1 pr er h
    have large : ∀ n : Nat, ∃ e, verdict p.hashFn p.difficulty msg n = (false, e) := by
      intro n
      rw [verdict_of_writes _ hw, scanSum_of_large _ _ (hlen n) hd2]
      split_ifs
      · exact ⟨_, rfl⟩
      · exact ⟨_, rfl⟩
    cases pr with
    | some pow =>
      obtain ⟨_, j, _, _, hv, _⟩ := searchLoop_success fired fuel p _ 0 p1 pow er h
      obtain ⟨e, he⟩ := large pow.proof
      rw [he] at hv
      simp at hv
    | none =>
      refine ⟨rfl, ?_⟩
      obtain ⟨j, _, _, hlast⟩ := searchLoop_failure fired fuel p _ 0 p1 er h
      rcases hlast with ⟨_, _, he⟩ | ⟨b, e, hv, he⟩
      · exact Or.inr he
      · left
        rw [verdict_of_writes _ hw] at hv
        rw [he, (scanSum_err _ _ _ _ hv).2]

theorem ValidatePoWork_difficulty_above_digest_bits_witness :
    (tightWorker.hashFn.WritesSucceed ∧ tightWorker.difficulty < 9223372036854775808)
      ∧ (tightWorker.ValidatePoWork ⟨[], 0, 0⟩).2 = (false, some errBufferOverrun)
      ∧ (tightWorker.ValidatePoWork ⟨[], 1, 0⟩).2 = (false, none)
      ∧ ((∀ pow : PoWork,
        8 * ((tightWorker.hashFn.digest (pow.msg ++ putUint64 pow.proof)).length : Int)
            < tightWorker.difficulty →
        ((∀ i, i < 8 * (tightWorker.hashFn.digest (pow.msg ++ putUint64 pow.proof)).length →
              bitAt (tightWorker.hashFn.digest (pow.msg ++ putUint64 pow.proof)) i = false) →
            (tightWorker.ValidatePoWork pow).2 = (false, some errBufferOverrun))
          ∧ ((∃ i, i < 8 * (tightWorker.hashFn.digest (pow.msg ++ putUint64 pow.proof)).length
                ∧ bitAt (tightWorker.hashFn.digest (pow.msg ++ putUint64 pow.proof)) i = true) →
            (tightWorker.ValidatePoWork pow).2 = (false, none)))
      ∧ ∀ msg : List Byte,
          (∀ n : Nat, 8 * ((tightWorker.hashFn.digest (msg ++ putUint64 n)).length : Int)
            < tightWorker.difficulty) →
          ∀ (fired : Nat → Bool) (fuel : Nat) (p1 : Worker) (pr : Option PoWork)
            (er : Option GoError),
            tightWorker.DoProofFor fired fuel msg = some (p1, (pr, er)) →
            pr = none ∧ (er = some errBufferOverrun ∨ er = some errTimedOut)) :=
  ⟨⟨(fun _ _ => rfl), by decide⟩, by decide, by decide,
    ValidatePoWork_difficulty_above_digest_bits tightWorker (fun _ _ => rfl) (by decide)⟩

/-- C6: errors are propagated at once and never retried. If the candidates
`0 .. j-1` were rejected while the timer had not fired and the validation of
candidate `j` returns an error, then `ValidatePoWork` returned `false` with it,
and `DoProofFor` returns a nil proof with that same error after exactly `j + 1`
validations: no further nonce is tried. -/
theorem DoProofFor_error_propagates (p : Worker) (fired : Nat → Bool) (msg : List Byte)
    (j : Nat) (b : Bool) (e : GoError)
    (hrej : ∀ i, i < j →
      (p.ValidatePoWork ⟨msg, i % 18446744073709551616, wrapInt i⟩).2 = (false, none)
        ∧ fired i = false)
    (herr : (p.ValidatePoWork ⟨msg, j % 18446744073709551616, wrapInt j⟩).2 = (b, some e)) :
    b = false
      ∧ p.DoProofFor fired j msg = none
      ∧ ∀ f, (p.DoProofFor fired (j + 1 + f) msg).map Prod.snd = some (none, some e) := by
  rw [ValidatePoWork_snd] at herr
  refine ⟨verdict_err _ _ _ _ _ _ herr, ?_, fun f => ?_⟩
  · have := DoProofFor_at p fired msg j 0 hrej
    rw [Nat.add_zero] at this
    rw [this]; rfl
  · rw [Nat.add_assoc, DoProofFor_at p fired msg j (1 + f) hrej, Nat.add_comm 1 f,
      searchLoop_succ]
    obtain ⟨c1, c2, _⟩ := workerAfter_config j p ⟨msg, 0, 0⟩
    rw [c1, c2]
    simp only [] at herr ⊢
    rw [herr]
    cases b <;> rfl

theorem DoProofFor_error_propagates_witness :
    ((∀ i, i < 2 →
        (brokenWorker.ValidatePoWork ⟨[], i % 18446744073709551616, wrapInt i⟩).2
            = (false, none) ∧ (fun _ => false) i = false)
      ∧ (brokenWorker.ValidatePoWork ⟨[], 2 % 18446744073709551616, wrapInt (2 : Nat)⟩).2
          = (false, some (GoError.hashWrite 5)))
      ∧ (false = false
        ∧ brokenWorker.DoProofFor (fun _ => false) 2 [] = none
        ∧ ∀ f, (brokenWorker.DoProofFor (fun _ => false) (2 + 1 + f) []).map Prod.snd
            = some (none, some (GoError.hashWrite 5))) :=
  ⟨⟨by decide, by decide⟩,
    DoProofFor_error_propagates brokenWorker (fun _ => false) [] 2 false
      (GoError.hashWrite 5) (by decide) (by decide)⟩

/-- C7: timeout. If the candidates `0 .. j` do not qualify and the timer is seen
as elapsed at the check that follows candidate `j`, `DoProofFor` returns a nil
proof with the timeout error, which is not the "not enough bits" error; and a
proof that `DoProofFor` returns always validates (no false success). -/
theorem DoProofFor_timeout (p : Worker) (fired : Nat → Bool) (msg : List Byte) (j : Nat)
    (hrej : ∀ i, i ≤ j →
      (p.ValidatePoWork ⟨msg, i % 18446744073709551616, wrapInt i⟩).2 = (false, none))
    (hfired : fired j = true) :
    (∀ f, (p.DoProofFor fired (j + 1 + f) msg).map Prod.snd = some (none, some errTimedOut))
      ∧ errTimedOut = GoError.new "Timed out while calculating proof of work"
      ∧ errTimedOut ≠ errBufferOverrun
      ∧ ∀ (fired1 : Nat → Bool) (fuel : Nat) (msg1 : List Byte) (p1 : Worker) (pow : PoWork)
          (er : Option GoError),
          p.DoProofFor fired1 fuel msg1 = some (p1, (some pow, er)) →
          (p.ValidatePoWork pow).2 = (true, none) := by
  refine ⟨fun f => ?_, rfl, by decide, ?_⟩
  · have hex : ∃ i, fired i = true := ⟨j, hfired⟩
    have hi : fired (Nat.find hex) = true := Nat.find_spec hex
    have hij : Nat.find hex ≤ j := Nat.find_min' hex hfired
    have hmin : ∀ m, m < Nat.find hex → fired m = false := fun m hm => by
      have := Nat.find_min hex hm
      simpa using this
    generalize Nat.find hex = i at hi hij hmin
    obtain ⟨g, hg⟩ : ∃ g, j + 1 + f = i + (g + 1) := ⟨j - i + f, by omega⟩
    have hlast := hrej i hij
    rw [ValidatePoWork_snd] at hlast
    rw [hg, DoProofFor_at p fired msg i (g + 1)
        (fun m hm => ⟨hrej m (by omega), hmin m hm⟩), searchLoop_succ]
    obtain ⟨c1, c2, _⟩ := workerAfter_config i p ⟨msg, 0, 0⟩
    rw [c1, c2]
    simp only [] at hlast ⊢
    rw [hlast]
    simp only [hi, if_true, Option.map_some']
  · intro fired1 fuel msg1 p1 pow er h
    obtain ⟨_, i, _, hpow, hv, _⟩ := searchLoop_success fired1 fuel p _ 0 p1 pow er h
    have hm : pow.msg = msg1 := by rw [hpow, iterate_next_msg]
    rw [ValidatePoWork_snd, hm]
    exact hv

theorem DoProofFor_timeout_witness :
    ((∀ i, i ≤ 1 →
        (sumWorker.ValidatePoWork ⟨[], i % 18446744073709551616, wrapInt i⟩).2 = (false, none))
      ∧ (fun k => decide (1 ≤ k)) 1 = true)
      ∧ (∀ f, (sumWorker.DoProofFor (fun k => decide (1 ≤ k)) (1 + 1 + f) []).map Prod.snd
            = some (none, some errTimedOut))
      ∧ errTimedOut = GoError.new "Timed out while calculating proof of work"
      ∧ errTimedOut ≠ errBufferOverrun
      ∧ ∀ (fired1 : Nat → Bool) (fuel : Nat) (msg1 : List Byte) (p1 : Worker) (pow : PoWork)
          (er : Option GoError),
          sumWorker.DoProofFor fired1 fuel msg1 = some (p1, (some pow, er)) →
          (sumWorker.ValidatePoWork pow).2 = (true, none) :=
  ⟨⟨by decide, by decide⟩,
    DoProofFor_timeout sumWorker (fun k => decide (1 ≤ k)) [] 1 (by decide) (by decide)⟩

/-- C8: every terminating call of `DoProofFor` yields exactly one terminal
outcome: a proof with a nil error, or a nil proof with an error, which is the
timeout error, the "not enough bits" error, or an error of a hash write. -/
theorem DoProofFor_one_outcome (p : Worker) (fired : Nat → Bool) (fuel : Nat)
    (msg : List Byte) (p1 : Worker) (pr : Option PoWork) (er : Option GoError)
    (h : p.DoProofFor fired fuel msg = some (p1, (pr, er))) :
    ((∃ pow, pr = some pow) ∧ er = none)
      ∨ (pr = none ∧ ∃ e, er = some e
          ∧ (e = errTimedOut ∨ e = errBufferOverrun
              ∨ ∃ s bs, p.hashFn.writeErr s bs = some e)) := by
  cases pr with
  | some pow =>
    left
    exact ⟨⟨pow, rfl⟩, (searchLoop_success fired fuel p _ 0 p1 pow er h).1⟩
  | none =>
    right
    refine ⟨rfl, ?_⟩
    obtain ⟨j, _, _, hlast⟩ := searchLoop_failure fired fuel p _ 0 p1 er h
    rcases hlast with ⟨_, _, he⟩ | ⟨b, e, hv, he⟩
    · exact ⟨errTimedOut, he, Or.inl rfl⟩
    · refine ⟨e, he, Or.inr ?_⟩
      rw [verdict_cases] at hv
      rcases h1 : p.hashFn.writeErr [] msg with _ | e1
      · rw [h1] at hv
        simp only [] at hv
        rcases h2 : p.hashFn.writeErr msg
            (putUint64 (PoWork.next^[j] ⟨msg, 0, 0⟩).proof) with _ | e2
        · rw [h2] at hv
          exact Or.inl (scanSum_err _ _ _ _ hv).2
        · rw [h2] at hv
          simp only [Prod.mk.injEq, Option.some.injEq] at hv
          exact Or.inr ⟨_, _, hv.2 ▸ h2⟩
      · rw [h1] at hv
        simp only [Prod.mk.injEq, Option.some.injEq] at hv
        exact Or.inr ⟨_, _, hv.2 ▸ h1⟩

theorem DoProofFor_one_outcome_witness :
    sumWorker.DoProofFor (fun k => decide (2 ≤ k)) 5 [1]
        = some ({ sumWorker with hasher := [1] ++ putUint64 2 }, (none, some errTimedOut))
      ∧ (((∃ pow, (none : Option PoWork) = some pow) ∧ some errTimedOut = none)
        ∨ ((none : Option PoWork) = none ∧ ∃ e, some errTimedOut = some e
            ∧ (e = errTimedOut ∨ e = errBufferOverrun
                ∨ ∃ s bs, sumWorker.hashFn.writeErr s bs = some e))) :=
  ⟨rfl, DoProofFor_one_outcome sumWorker (fun k => decide (2 ≤ k)) 5 [1] _ none
    (some errTimedOut) rfl⟩

/-- C9: the proof of a successful search records the input. Its message
(`GetMessage`, and `GetMessageString` as a string, also through
`DoProofForString`) is the byte sequence passed in; every nonce below the
returned one was tried and rejected; and, when at most `2^63` validations were
run (fewer than `2^63` rejected nonces, so that the signed counter has not
wrapped), its iteration count equals its nonce. -/
theorem DoProofFor_records_input (p : Worker) (fired : Nat → Bool) (fuel : Nat)
    (msg : List Byte) (p1 : Worker) (pow : PoWork) (er : Option GoError)
    (h : p.DoProofFor fired fuel msg = some (p1, (some pow, er))) :
    pow.msg = msg ∧ pow.GetMessage = msg ∧ pow.GetMessageString = msg
      ∧ p.DoProofForString fired fuel msg = some (p1, (some pow, er))
      ∧ (∀ k : Nat, k < pow.proof → (p.ValidatePoWork ⟨msg, k, k⟩).2 = (false, none))
      ∧ (fuel ≤ 9223372036854775808 → pow.requiredIterations = (pow.proof : Int))
      ∧ (pow.proof < 9223372036854775808 → pow.requiredIterations = (pow.proof : Int)) := by
  obtain ⟨_, j, hj, hpow, _, hlt⟩ := searchLoop_success fired fuel p _ 0 p1 pow er h
  rw [iterate_next_eq] at hpow
  subst hpow
  refine ⟨rfl, rfl, rfl, h, ?_, ?_, ?_⟩
  · intro k hk
    simp only [] at hk
    have hkj : k < j := by
      have := Nat.mod_le j 18446744073709551616
      omega
    have hk64 : k % 18446744073709551616 = k := by
      apply Nat.mod_eq_of_lt
      have := Nat.mod_lt j (show 18446744073709551616 > 0 by decide)
      omega
    have := (hlt k hkj).1
    rw [iterate_next_eq] at this
    simp only [hk64] at this
    rw [ValidatePoWork_snd]
    exact this
  · intro hf
    simp only [wrapInt]
    omega
  · intro hf
    simp only [wrapInt] at hf ⊢
    omega

theorem DoProofFor_records_input_witness :
    sumWorker.DoProofFor (fun _ => false) 6 [1, 255]
        = some ({ sumWorker with hasher := [1, 255] ++ putUint64 4 },
            (some ⟨[1, 255], 4, 4⟩, none))
      ∧ (⟨[1, 255], 4, 4⟩ : PoWork).msg = [1, 255]
      ∧ (⟨[1, 255], 4, 4⟩ : PoWork).GetMessage = [1, 255]
      ∧ (⟨[1, 255], 4, 4⟩ : PoWork).GetMessageString = [1, 255]
      ∧ sumWorker.DoProofForString (fun _ => false) 6 [1, 255]
          = some ({ sumWorker with hasher := [1, 255] ++ putUint64 4 },
              (some ⟨[1, 255], 4, 4⟩, none))
      ∧ (∀ k : Nat, k < (⟨[1, 255], 4, 4⟩ : PoWork).proof →
          (sumWorker.ValidatePoWork ⟨[1, 255], k, k⟩).2 = (false, none))
      ∧ ((6 : Nat) ≤ 9223372036854775808 →
          (⟨[1, 255], 4, 4⟩ : PoWork).requiredIterations
            = ((⟨[1, 255], 4, 4⟩ : PoWork).proof : Int))
      ∧ ((⟨[1, 255], 4, 4⟩ : PoWork).proof < 9223372036854775808 →
          (⟨[1, 255], 4, 4⟩ : PoWork).requiredIterations
            = ((⟨[1, 255], 4, 4⟩ : PoWork).proof : Int)) :=
  ⟨rfl, DoProofFor_records_input sumWorker (fun _ => false) 6 [1, 255] _ ⟨[1, 255], 4, 4⟩
    none rfl⟩

/-- C10: the setters report but still apply out-of-range values.
`SetDifficulty(v)` returns an error if and only if `v ≤ 0`, `SetTimeout(v)` if and
only if `v < 0`; in every case the field afterwards equals `v` and the other
fields of the Worker are unchanged. -/
theorem setters_apply_and_report (p : Worker) (v : Int) :
    (((p.SetDifficulty v).2 ≠ none ↔ v ≤ 0)
        ∧ (p.SetDifficulty v).1.difficulty = v
        ∧ (p.SetDifficulty v).1.hashFn = p.hashFn
        ∧ (p.SetDifficulty v).1.hasher = p.hasher
        ∧ (p.SetDifficulty v).1.maxWait = p.maxWait)
      ∧ (((p.SetTimeout v).2 ≠ none ↔ v < 0)
        ∧ (p.SetTimeout v).1.maxWait = v
        ∧ (p.SetTimeout v).1.hashFn = p.hashFn
        ∧ (p.SetTimeout v).1.hasher = p.hasher
        ∧ (p.SetTimeout v).1.difficulty = p.difficulty) := by
  constructor
  · unfold Worker.SetDifficulty
    by_cases hv : v ≤ 0
    · simp [hv]
    · simp [hv]
  · unfold Worker.SetTimeout
    by_cases hv : v < 0
    · simp [hv]
    · simp [hv]

/-- C11: monotonicity in difficulty. For one message and one hash and
difficulties `1 ≤ d1 ≤ d2` (64-bit `int`s), if the searches at `d1` and at `d2`
both succeed, the nonce found at `d2` is never less than the nonce found at
`d1`, and neither is the iteration count as long as the signed counter has not
wrapped (nonce below `2^63`). -/
theorem DoProofFor_monotone_in_difficulty (p q : Worker) (fired1 fired2 : Nat → Bool)
    (fuel1 fuel2 : Nat) (msg : List Byte) (p1 q1 : Worker) (pow1 pow2 : PoWork)
    (hh : q.hashFn = p.hashFn) (hd1 : 1 ≤ p.difficulty)
    (hd12 : p.difficulty ≤ q.difficulty) (hd2 : q.difficulty < 9223372036854775808)
    (h1 : p.DoProofFor fired1 fuel1 msg = some (p1, (some pow1, none)))
    (h2 : q.DoProofFor fired2 fuel2 msg = some (q1, (some pow2, none))) :
    pow1.proof ≤ pow2.proof
      ∧ (pow2.proof < 9223372036854775808 →
          pow1.requiredIterations ≤ pow2.requiredIterations) := by
  obtain ⟨_, j1, _, e1, _, hrej, _⟩ := DoProofFor_success_shape p fired1 fuel1 msg p1 pow1 _ h1
  obtain ⟨_, j2, _, e2, hv2, _, _⟩ := DoProofFor_success_shape q fired2 fuel2 msg q1 pow2 _ h2
  rw [hh] at hv2
  have hv1 := verdict_true_of_le _ _ _ _ _ hd1 hd12 hd2 hv2
  have hle : pow1.proof ≤ pow2.proof := by
    by_contra hlt
    have := hrej pow2.proof (by omega)
    rw [this] at hv1
    simp at hv1
  refine ⟨hle, fun h63 => ?_⟩
  rw [e1, e2] at hle
  rw [e2] at h63
  rw [e1, e2]
  simp only [wrapInt] at hle h63 ⊢
  omega

theorem DoProofFor_monotone_in_difficulty_witness :
    (hardWorker.hashFn = sumWorker.hashFn ∧ 1 ≤ sumWorker.difficulty
        ∧ sumWorker.difficulty ≤ hardWorker.difficulty
        ∧ hardWorker.difficulty < 9223372036854775808
        ∧ sumWorker.DoProofFor (fun _ => false) 20 [62]
            = some ({ sumWorker with hasher := [62] ++ putUint64 2 }, (some ⟨[62], 2, 2⟩, none))
        ∧ hardWorker.DoProofFor (fun _ => false) 20 [62]
            = some ({ hardWorker with hasher := [62] ++ putUint64 17 }, (some ⟨[62], 17, 17⟩, none)))
      ∧ (⟨[62], 2, 2⟩ : PoWork).proof ≤ (⟨[62], 17, 17⟩ : PoWork).proof
      ∧ ((⟨[62], 17, 17⟩ : PoWork).proof < 9223372036854775808 →
          (⟨[62], 2, 2⟩ : PoWork).requiredIterations
            ≤ (⟨[62], 17, 17⟩ : PoWork).requiredIterations) :=
  ⟨⟨rfl, by decide, by decide, by decide, rfl, rfl⟩,
    DoProofFor_monotone_in_difficulty sumWorker hardWorker (fun _ => false) (fun _ => false)
      20 20 [62] _ _ ⟨[62], 2, 2⟩ ⟨[62], 17, 17⟩ rfl (by decide) (by decide) (by decide) rfl rfl⟩

/-- C12 (as stated, refuted): the search for the message `[1]` at difficulty 3
finds the nonce 3, and that nonce also validates under the different message
`[0, 1]`, whose payload has the same checksum. -/
theorem mismatched_message_counterexample :
    (sumWorker.DoProofFor (fun _ => false) 5 [1]).map Prod.snd
        = some (some ⟨[1], 3, 3⟩, none)
      ∧ ([0, 1] : List Byte) ≠ [1]
      ∧ (sumWorker.ValidatePoWork ⟨[0, 1], 3, 3⟩).2 = (true, none) := by
  decide

/-- C12 (amended): for a proof found by a successful search for `m` and a message
`m1 ≠ m`, validating the proof's nonce against `m1` hashes a different payload,
`m1 ++ LE8(nonce)`, and returns true only if the digest of that payload has its
own first `d` bits zero: it fails whenever that digest has a one bit among its
first `d` bits or has fewer than `d` bits. -/
theorem ValidatePoWork_mismatched_message (p : Worker) (fired : Nat → Bool) (fuel : Nat)
    (m m1 : List Byte) (p1 : Worker) (pow : PoWork)
    (hd1 : 1 ≤ p.difficulty) (hd2 : p.difficulty < 9223372036854775808)
    (h : p.DoProofFor fired fuel m = some (p1, (some pow, none))) (hne : m1 ≠ m) :
    m1 ++ putUint64 pow.proof ≠ pow.msg ++ putUint64 pow.proof
      ∧ ((p.ValidatePoWork ⟨m1, pow.proof, pow.requiredIterations⟩).2 = (true, none) →
          p.difficulty ≤ 8 * ((p.hashFn.digest (m1 ++ putUint64 pow.proof)).length : Int)
            ∧ ∀ i : Nat, (i : Int) < p.difficulty →
                bitAt (p.hashFn.digest (m1 ++ putUint64 pow.proof)) i = false)
      ∧ ((∃ i : Nat, (i : Int) < p.difficulty
            ∧ bitAt (p.hashFn.digest (m1 ++ putUint64 pow.proof)) i = true) →
          (p.ValidatePoWork ⟨m1, pow.proof, pow.requiredIterations⟩).2 ≠ (true, none)) := by
  obtain ⟨_, j, _, hpow, _, _, _⟩ := DoProofFor_success_shape p fired fuel m p1 pow _ h
  have hm : pow.msg = m := by rw [hpow]
  have key : (p.ValidatePoWork ⟨m1, pow.proof, pow.requiredIterations⟩).2 = (true, none) →
      p.difficulty ≤ 8 * ((p.hashFn.digest (m1 ++ putUint64 pow.proof)).length : Int)
        ∧ ∀ i : Nat, (i : Int) < p.difficulty →
            bitAt (p.hashFn.digest (m1 ++ putUint64 pow.proof)) i = false := by
    intro hv
    rw [ValidatePoWork_snd, verdict_true_iff _ _ _ _ hd1 hd2] at hv
    obtain ⟨n, hn⟩ : ∃ n : Nat, p.difficulty = n := ⟨p.difficulty.toNat, by omega⟩
    have h3 : p.difficulty
        ≤ (leadingZeros (digestBits (p.hashFn.digest (m1 ++ putUint64 pow.proof))) : Int) :=
      hv.2.2
    rw [hn] at h3 ⊢
    have h4 := (le_leadingZeros_digestBits (p.hashFn.digest (m1 ++ putUint64 pow.proof)) n).1
      (by omega)
    exact ⟨by omega, fun i hi => h4.2 i (by omega)⟩
  refine ⟨?_, key, ?_⟩
  · rw [hm]
    intro heq
    exact hne (List.append_cancel_right heq)
  · rintro ⟨i, hi, hbit⟩ hv
    have := (key hv).2 i hi
    rw [this] at hbit
    exact Bool.noConfusion hbit

theorem ValidatePoWork_mismatched_message_witness :
    (1 ≤ sumWorker.difficulty ∧ sumWorker.difficulty < 9223372036854775808
        ∧ sumWorker.DoProofFor (fun _ => false) 5 [1]
            = some ({ sumWorker with hasher := [1] ++ putUint64 3 }, (some ⟨[1], 3, 3⟩, none))
        ∧ ([3] : List Byte) ≠ [1])
      ∧ (sumWorker.ValidatePoWork ⟨[3], 3, 3⟩).2 = (false, none)
      ∧ [3] ++ putUint64 (⟨[1], 3, 3⟩ : PoWork).proof
          ≠ (⟨[1], 3, 3⟩ : PoWork).msg ++ putUint64 (⟨[1], 3, 3⟩ : PoWork).proof
      ∧ ((sumWorker.ValidatePoWork
            ⟨[3], (⟨[1], 3, 3⟩ : PoWork).proof, (⟨[1], 3, 3⟩ : PoWork).requiredIterations⟩).2
          = (true, none) →
          sumWorker.difficulty
              ≤ 8 * ((sumWorker.hashFn.digest
                  ([3] ++ putUint64 (⟨[1], 3, 3⟩ : PoWork).proof)).length : Int)
            ∧ ∀ i : Nat, (i : Int) < sumWorker.difficulty →
                bitAt (sumWorker.hashFn.digest
                  ([3] ++ putUint64 (⟨[1], 3, 3⟩ : PoWork).proof)) i = false)
      ∧ ((∃ i : Nat, (i : Int) < sumWorker.difficulty
            ∧ bitAt (sumWorker.hashFn.digest
                ([3] ++ putUint64 (⟨[1], 3, 3⟩ : PoWork).proof)) i = true) →
          (sumWorker.ValidatePoWork
            ⟨[3], (⟨[1], 3, 3⟩ : PoWork).proof, (⟨[1], 3, 3⟩ : PoWork).requiredIterations⟩).2
            ≠ (true, none)) :=
  ⟨⟨by decide, by decide, rfl, by decide⟩, by decide,
    ValidatePoWork_mismatched_message sumWorker (fun _ => false) 5 [1] [3] _ ⟨[1], 3, 3⟩
      (by decide) (by decide) rfl (by decide)⟩

/-- C14: single delivery. Once the timer has fired `DoProofFor` has returned a
pair `r`, and then `PrepareProof` has delivered exactly that one value on its
channel and closed it: the first receive yields `r`, every later receive finds
the channel closed and empty, and nothing more can be sent. `SendProofToChannel`
leaves exactly that one value more to be received on every open channel,
buffered or not, full or not: in the buffer when there is room, otherwise with
the sender that waits for a receiver; the receives that drain the channel all
yield a value, `r` among them once, after the values sent before it. -/
theorem single_delivery (p : Worker) (fired : Nat → Bool) (msg : List Byte) (k : Nat)
    (hk : fired k = true) :
    ∃ (p1 : Worker) (r : Result),
      (∀ f, p.DoProofFor fired (k + 1 + f) msg = some (p1, r))
        ∧ (∀ f, p.PrepareProof fired (k + 1 + f) msg
            = some (p1, { cap := 1, pending := [r], closed := true }))
        ∧ Chan.recv { cap := 1, pending := [r], closed := true }
            = some ((r, true), { cap := 1, pending := [], closed := true })
        ∧ Chan.recv { cap := 1, pending := [], closed := true }
            = some (((none, none), false), { cap := 1, pending := [], closed := true })
        ∧ (∀ v, Chan.send { cap := 1, pending := [r], closed := true } v = none)
        ∧ ∀ c : Chan, c.closed = false → ∀ f, ∃ c1 : Chan,
            p.SendProofToChannel fired (k + 1 + f) msg c = some (p1, c1)
              ∧ c1.closed = false ∧ c1.cap = c.cap
              ∧ c1.queue.Perm (r :: c.queue)
              ∧ ((c.parked = [] ∨ c.cap ≤ c.pending.length) → c1.queue = c.queue ++ [r])
              ∧ (c.pending.length < c.cap → c1 = { c with pending := c.pending ++ [r] })
              ∧ ∃ c2 : Chan,
                  c1.recvN (c.queue.length + 1)
                      = some (c1.queue.map (fun v => (v, true)), c2)
                    ∧ c2.queue = [] := by
  obtain ⟨p1, r, hr⟩ := DoProofFor_terminates p fired msg k hk
  refine ⟨p1, r, hr, fun f => ?_, rfl, rfl, fun v => rfl, fun c hopen f => ?_⟩
  · unfold Worker.PrepareProof
    rw [hr f]
    rfl
  · obtain ⟨c1, h1, h2, h3, h4, h5, h6⟩ := Chan.send_open c r hopen
    obtain ⟨c2, g1, g2, _, _⟩ := Chan.recvN_queue c1.queue c1 rfl
    have hlen : c1.queue.length = c.queue.length + 1 := by
      rw [h4.length_eq, List.length_cons]
    refine ⟨c1, ?_, h2, h3, h4, h5, h6, c2, ?_, g2⟩
    · unfold Worker.SendProofToChannel
      rw [hr f]
      show ((c.send r).map (fun c1 => (p1, c1))) = some (p1, c1)
      rw [h1]
      rfl
    · rw [← hlen]; exact g1

theorem single_delivery_witness :
    (fun k => decide (6 ≤ k)) 6 = true
      ∧ (sumWorker.PrepareProof (fun k => decide (6 ≤ k)) 7 []).map Prod.snd
          = some { cap := 1, pending := [(some ⟨[], 4, 4⟩, none)], closed := true }
      ∧ (sumWorker.SendProofToChannel (fun k => decide (6 ≤ k)) 7 [] (GetChannel 0)).map
            Prod.snd
          = some { cap := 0, pending := [], closed := false,
                   parked := [(some ⟨[], 4, 4⟩, none)] }
      ∧ Chan.recv { cap := 0, pending := [], closed := false,
                    parked := [(some ⟨[], 4, 4⟩, none)] }
          = some (((some ⟨[], 4, 4⟩, none), true), GetChannel 0)
      ∧ ((sumWorker.SendProofToChannel (fun k => decide (6 ≤ k)) 7 []
              { cap := 1, pending := [(none, some errTimedOut)], closed := false }).map
            Prod.snd).bind (Chan.recvN 2)
          = some ([((none, some errTimedOut), true), ((some ⟨[], 4, 4⟩, none), true)],
              GetChannel 1)
      ∧ ∃ (p1 : Worker) (r : Result),
        (∀ f, sumWorker.DoProofFor (fun k => decide (6 ≤ k)) (6 + 1 + f) [] = some (p1, r))
        ∧ (∀ f, sumWorker.PrepareProof (fun k => decide (6 ≤ k)) (6 + 1 + f) []
            = some (p1, { cap := 1, pending := [r], closed := true }))
        ∧ Chan.recv { cap := 1, pending := [r], closed := true }
            = some ((r, true), { cap := 1, pending := [], closed := true })
        ∧ Chan.recv { cap := 1, pending := [], closed := true }
            = some (((none, none), false), { cap := 1, pending := [], closed := true })
        ∧ (∀ v, Chan.send { cap := 1, pending := [r], closed := true } v = none)
        ∧ ∀ c : Chan, c.closed = false → ∀ f, ∃ c1 : Chan,
            sumWorker.SendProofToChannel (fun k => decide (6 ≤ k)) (6 + 1 + f) [] c
                = some (p1, c1)
              ∧ c1.closed = false ∧ c1.cap = c.cap
              ∧ c1.queue.Perm (r :: c.queue)
              ∧ ((c.parked = [] ∨ c.cap ≤ c.pending.length) → c1.queue = c.queue ++ [r])
              ∧ (c.pending.length < c.cap → c1 = { c with pending := c.pending ++ [r] })
              ∧ ∃ c2 : Chan,
                  c1.recvN (c.queue.length + 1)
                      = some (c1.queue.map (fun v => (v, true)), c2)
                    ∧ c2.queue = [] :=
  ⟨by decide, by decide, by decide, by decide, by decide,
    single_delivery sumWorker (fun k => decide (6 ≤ k)) [] 6 (by decide)⟩

/-- C15: for a hash whose writes do not fail (difficulty a 64-bit `int`, digest
of fewer than `2^63` bits), `ValidatePoWork` returns the "Buffer overrun: not
enough bits in hash" error if and only if every bit of the digest is zero (an
empty digest included) and the difficulty is not in `1 .. 8 * len(digest)`; a
digest with a one bit never produces this error. -/
theorem ValidatePoWork_overrun_iff (p : Worker) (pow : PoWork)
    (hw : p.hashFn.WritesSucceed)
    (hlo : -9223372036854775808 ≤ p.difficulty) (hhi : p.difficulty < 9223372036854775808)
    (hlen : 8 * (p.hashFn.digest (pow.msg ++ putUint64 pow.proof)).length
      < 9223372036854775808) :
    ((p.ValidatePoWork pow).2 = (false, some errBufferOverrun)
        ↔ (∀ i, i < 8 * (p.hashFn.digest (pow.msg ++ putUint64 pow.proof)).length →
              bitAt (p.hashFn.digest (pow.msg ++ putUint64 pow.proof)) i = false)
          ∧ ¬ (1 ≤ p.difficulty ∧ p.difficulty
                ≤ 8 * ((p.hashFn.digest (pow.msg ++ putUint64 pow.proof)).length : Int)))
      ∧ ((p.ValidatePoWork pow).2.2 ≠ none →
          (p.ValidatePoWork pow).2 = (false, some errBufferOverrun))
      ∧ ((∃ i, i < 8 * (p.hashFn.digest (pow.msg ++ putUint64 pow.proof)).length
            ∧ bitAt (p.hashFn.digest (pow.msg ++ putUint64 pow.proof)) i = true) →
          (p.ValidatePoWork pow).2.2 = none) := by
  rw [ValidatePoWork_snd, verdict_of_writes _ hw]
  generalize p.hashFn.digest (pow.msg ++ putUint64 pow.proof) = digest at hlen ⊢
  have hle := leadingZeros_le_length (digestBits digest)
  rw [digestBits_length] at hle
  have hlt := leadingZeros_lt_iff digest
  have hone : (∃ i, i < 8 * digest.length ∧ bitAt digest i = true)
      → ¬ ∀ i, i < 8 * digest.length → bitAt digest i = false := by
    rintro ⟨i, hi, hb⟩ hall
    rw [hall i hi] at hb
    exact Bool.noConfusion hb
  by_cases hall : ∀ i, i < 8 * digest.length → bitAt digest i = false
  · have hfull : ¬ leadingZeros (digestBits digest) < 8 * digest.length := fun h =>
      hlt.1 h hall
    by_cases hd : 1 ≤ p.difficulty
    · rw [scanSum_of_pos _ _ hd hhi]
      by_cases hq : p.difficulty ≤ (leadingZeros (digestBits digest) : Int)
      · rw [if_pos hq]
        refine ⟨⟨fun h => by simp at h, fun h => absurd ⟨hd, by omega⟩ h.2⟩,
          fun h => absurd rfl h, fun h => absurd hall (hone h)⟩
      · rw [if_neg hq, if_neg hfull]
        refine ⟨⟨fun _ => ⟨hall, fun h => hq (by omega)⟩, fun _ => rfl⟩, fun _ => rfl,
          fun h => absurd hall (hone h)⟩
    · rw [scanSum_of_nonpos _ _ hlo (by omega) hlen, if_pos hall]
      refine ⟨⟨fun _ => ⟨hall, fun h => hd h.1⟩, fun _ => rfl⟩, fun _ => rfl,
        fun h => absurd hall (hone h)⟩
  · have hshort : leadingZeros (digestBits digest) < 8 * digest.length := hlt.2 hall
    by_cases hd : 1 ≤ p.difficulty
    · rw [scanSum_of_pos _ _ hd hhi]
      by_cases hq : p.difficulty ≤ (leadingZeros (digestBits digest) : Int)
      · rw [if_pos hq]
        refine ⟨⟨fun h => by simp at h, fun h => absurd h.1 hall⟩,
          fun h => absurd rfl h, fun _ => rfl⟩
      · rw [if_neg hq, if_pos hshort]
        refine ⟨⟨fun h => by simp at h, fun h => absurd h.1 hall⟩,
          fun h => absurd rfl h, fun _ => rfl⟩
    · rw [scanSum_of_nonpos _ _ hlo (by omega) hlen, if_neg hall]
      refine ⟨⟨fun h => by simp at h, fun h => absurd h.1 hall⟩,
        fun h => absurd rfl h, fun _ => rfl⟩

theorem ValidatePoWork_overrun_iff_witness :
    (tightWorker.hashFn.WritesSucceed ∧ -9223372036854775808 ≤ tightWorker.difficulty
        ∧ tightWorker.difficulty < 9223372036854775808
        ∧ 8 * (tightWorker.hashFn.digest ([] ++ putUint64 0)).length < 9223372036854775808)
      ∧ (tightWorker.ValidatePoWork ⟨[], 0, 0⟩).2 = (false, some errBufferOverrun)
      ∧ ((tightWorker.ValidatePoWork ⟨[], 0, 0⟩).2 = (false, some errBufferOverrun)
        ↔ (∀ i, i < 8 * (tightWorker.hashFn.digest ([] ++ putUint64 0)).length →
              bitAt (tightWorker.hashFn.digest ([] ++ putUint64 0)) i = false)
          ∧ ¬ (1 ≤ tightWorker.difficulty ∧ tightWorker.difficulty
                ≤ 8 * ((tightWorker.hashFn.digest ([] ++ putUint64 0)).length : Int)))
      ∧ ((tightWorker.ValidatePoWork ⟨[], 0, 0⟩).2.2 ≠ none →
          (tightWorker.ValidatePoWork ⟨[], 0, 0⟩).2 = (false, some errBufferOverrun))
      ∧ ((∃ i, i < 8 * (tightWorker.hashFn.digest ([] ++ putUint64 0)).length
            ∧ bitAt (tightWorker.hashFn.digest ([] ++ putUint64 0)) i = true) →
          (tightWorker.ValidatePoWork ⟨[], 0, 0⟩).2.2 = none) :=
  ⟨⟨fun _ _ => rfl, by decide, by decide, by decide⟩, by decide,
    ValidatePoWork_overrun_iff tightWorker ⟨[], 0, 0⟩ (fun _ _ => rfl) (by decide)
      (by decide) (by decide)⟩

/-- C16: validation is a function of the configuration and the proof only. Since
the hash is reset before input is written, two Workers with the same difficulty
and hash algorithm, whatever their hashers absorbed before, return the same
result for the same message and nonce; a repeated validation agrees with the
first; and a proof that a search returned validates later under the same
configuration. -/
theorem ValidatePoWork_independent_of_hasher_state (p q : Worker) (pow pow1 : PoWork)
    (hd : q.difficulty = p.difficulty) (hh : q.hashFn = p.hashFn)
    (hm : pow1.msg = pow.msg) (hn : pow1.proof = pow.proof) :
    (q.ValidatePoWork pow1).2 = (p.ValidatePoWork pow).2
      ∧ (∀ s : List Byte,
          (({ p with hasher := s } : Worker).ValidatePoWork pow).2 = (p.ValidatePoWork pow).2)
      ∧ ((p.ValidatePoWork pow).1.ValidatePoWork pow).2 = (p.ValidatePoWork pow).2
      ∧ ∀ (fired : Nat → Bool) (fuel : Nat) (msg : List Byte) (p1 : Worker) (found : PoWork),
          p.DoProofFor fired fuel msg = some (p1, (some found, none)) →
          (q.ValidatePoWork found).2 = (true, none) := by
  refine ⟨ValidatePoWork_snd_congr p q pow pow1 hd hh hm hn,
    fun s => ValidatePoWork_snd_congr p _ pow pow rfl rfl rfl rfl, ?_, ?_⟩
  · obtain ⟨c1, c2, _⟩ := ValidatePoWork_config p pow
    exact ValidatePoWork_snd_congr p _ pow pow c1 c2 rfl rfl
  · intro fired fuel msg p1 found h
    obtain ⟨_, j, _, hpow, hv, _, _⟩ := DoProofFor_success_shape p fired fuel msg p1 found _ h
    have hmsg : found.msg = msg := by rw [hpow]
    rw [ValidatePoWork_snd, hd, hh, hmsg]
    exact hv

theorem ValidatePoWork_independent_of_hasher_state_witness :
    ((({ sumWorker with hasher := [9, 9, 9], maxWait := 1 } : Worker).difficulty
          = sumWorker.difficulty
        ∧ ({ sumWorker with hasher := [9, 9, 9], maxWait := 1 } : Worker).hashFn
          = sumWorker.hashFn
        ∧ (⟨[1], 3, 77⟩ : PoWork).msg = (⟨[1], 3, 3⟩ : PoWork).msg
        ∧ (⟨[1], 3, 77⟩ : PoWork).proof = (⟨[1], 3, 3⟩ : PoWork).proof))
      ∧ (({ sumWorker with hasher := [9, 9, 9], maxWait := 1 } : Worker).ValidatePoWork
            ⟨[1], 3, 77⟩).2 = (sumWorker.ValidatePoWork ⟨[1], 3, 3⟩).2
      ∧ (∀ s : List Byte,
          (({ sumWorker with hasher := s } : Worker).ValidatePoWork ⟨[1], 3, 3⟩).2
            = (sumWorker.ValidatePoWork ⟨[1], 3, 3⟩).2)
      ∧ ((sumWorker.ValidatePoWork ⟨[1], 3, 3⟩).1.ValidatePoWork ⟨[1], 3, 3⟩).2
          = (sumWorker.ValidatePoWork ⟨[1], 3, 3⟩).2
      ∧ ∀ (fired : Nat → Bool) (fuel : Nat) (msg : List Byte) (p1 : Worker) (found : PoWork),
          sumWorker.DoProofFor fired fuel msg = some (p1, (some found, none)) →
          (({ sumWorker with hasher := [9, 9, 9], maxWait := 1 } : Worker).ValidatePoWork
            found).2 = (true, none) :=
  ⟨⟨rfl, rfl, rfl, rfl⟩,
    ValidatePoWork_independent_of_hasher_state sumWorker
      { sumWorker with hasher := [9, 9, 9], maxWait := 1 } ⟨[1], 3, 3⟩ ⟨[1], 3, 77⟩
      rfl rfl rfl rfl⟩

/-- C17: search completeness and termination. If the nonce `n` (a `uint64`)
qualifies, no smaller nonce does, no validation of a smaller nonce errors, and
the timer is not seen as elapsed at any of the first `n` checks, then
`DoProofFor` returns after exactly `n + 1` validations, with a proof of nonce `n`
and a nil error. -/
theorem DoProofFor_finds_least_nonce (p : Worker) (fired : Nat → Bool) (msg : List Byte)
    (n : Nat) (hn : n < 18446744073709551616)
    (hq : (p.ValidatePoWork ⟨msg, n, wrapInt n⟩).2 = (true, none))
    (hleast : ∀ k, k < n → (p.ValidatePoWork ⟨msg, k, wrapInt k⟩).2 ≠ (true, none))
    (hnoerr : ∀ k, k < n → (p.ValidatePoWork ⟨msg, k, wrapInt k⟩).2.2 = none)
    (htimer : ∀ k, k < n → fired k = false) :
    p.DoProofFor fired n msg = none
      ∧ ∀ f, ∃ p1, p.DoProofFor fired (n + 1 + f) msg
          = some (p1, (some ⟨msg, n, wrapInt n⟩, none)) := by
  have hrej : ∀ i, i < n →
      (p.ValidatePoWork ⟨msg, i % 18446744073709551616, wrapInt i⟩).2 = (false, none)
        ∧ fired i = false := by
    intro i hi
    have hi64 : i % 18446744073709551616 = i := Nat.mod_eq_of_lt (by omega)
    rw [hi64]
    refine ⟨?_, htimer i hi⟩
    have h1 := hleast i hi
    have h2 := hnoerr i hi
    rcases hr : (p.ValidatePoWork ⟨msg, i, wrapInt i⟩).2 with ⟨b, e⟩
    rw [hr] at h1 h2
    simp only [] at h2
    subst h2
    cases b with
    | true => exact absurd rfl h1
    | false => rfl
  have hn64 : n % 18446744073709551616 = n := Nat.mod_eq_of_lt hn
  constructor
  · have := DoProofFor_at p fired msg n 0 hrej
    rw [Nat.add_zero] at this
    rw [this]; rfl
  · intro f
    rw [Nat.add_assoc, DoProofFor_at p fired msg n (1 + f) hrej, Nat.add_comm 1 f,
      searchLoop_succ, hn64]
    obtain ⟨c1, c2, _⟩ := workerAfter_config n p ⟨msg, 0, 0⟩
    rw [c1, c2]
    rw [ValidatePoWork_snd] at hq
    simp only [] at hq ⊢
    rw [hq]
    exact ⟨_, rfl⟩

theorem DoProofFor_finds_least_nonce_witness :
    ((4 : Nat) < 18446744073709551616
        ∧ (sumWorker.ValidatePoWork ⟨[], 4, wrapInt (4 : Nat)⟩).2 = (true, none)
        ∧ (∀ k, k < 4 → (sumWorker.ValidatePoWork ⟨[], k, wrapInt k⟩).2 ≠ (true, none))
        ∧ (∀ k, k < 4 → (sumWorker.ValidatePoWork ⟨[], k, wrapInt k⟩).2.2 = none)
        ∧ (∀ k, k < 4 → (fun i => decide (4 ≤ i)) k = false))
      ∧ sumWorker.DoProofFor (fun i => decide (4 ≤ i)) 4 [] = none
      ∧ ∀ f, ∃ p1, sumWorker.DoProofFor (fun i => decide (4 ≤ i)) (4 + 1 + f) []
          = some (p1, (some ⟨[], 4, wrapInt (4 : Nat)⟩, none)) :=
  ⟨⟨by decide, by decide, by decide, by decide, by decide⟩,
    DoProofFor_finds_least_nonce sumWorker (fun i => decide (4 ≤ i)) [] 4 (by decide)
      (by decide) (by decide) (by decide) (by decide)⟩

/-- C18: with a stored difficulty `v ≤ 0` (a 64-bit `int`, which `SetDifficulty`
applies while returning an error) and digests of fewer than `2^63` bits,
`ValidatePoWork` never returns true, for any message, nonce or hash: when the
writes succeed the result is `(false, nil)` if the digest has a one bit and the
"not enough bits" error if it has none; and `DoProofFor` never returns a proof. -/
theorem ValidatePoWork_nonpositive_difficulty (q : Worker) (v : Int)
    (hv : v ≤ 0) (hlo : -9223372036854775808 ≤ v)
    (hlen : ∀ data, 8 * (q.hashFn.digest data).length < 9223372036854775808) :
    (q.SetDifficulty v).2 ≠ none
      ∧ (q.SetDifficulty v).1.difficulty = v
      ∧ (∀ pow : PoWork, ((q.SetDifficulty v).1.ValidatePoWork pow).2.1 = false)
      ∧ (∀ pow : PoWork, q.hashFn.writeErr [] pow.msg = none →
          q.hashFn.writeErr pow.msg (putUint64 pow.proof) = none →
          ((∃ i, i < 8 * (q.hashFn.digest (pow.msg ++ putUint64 pow.proof)).length
                ∧ bitAt (q.hashFn.digest (pow.msg ++ putUint64 pow.proof)) i = true) →
              ((q.SetDifficulty v).1.ValidatePoWork pow).2 = (false, none))
            ∧ ((∀ i, i < 8 * (q.hashFn.digest (pow.msg ++ putUint64 pow.proof)).length →
                  bitAt (q.hashFn.digest (pow.msg ++ putUint64 pow.proof)) i = false) →
              ((q.SetDifficulty v).1.ValidatePoWork pow).2 = (false, some errBufferOverrun)))
      ∧ ∀ (fired : Nat → Bool) (fuel : Nat) (msg : List Byte) (p1 : Worker)
          (pr : Option PoWork) (er : Option GoError),
          (q.SetDifficulty v).1.DoProofFor fired fuel msg = some (p1, (pr, er)) →
          pr = none := by
  rw [SetDifficulty_fst]
  refine ⟨?_, rfl, ?_, ?_, ?_⟩
  · unfold Worker.SetDifficulty
    rw [if_pos hv]
    simp
  · intro pow
    rw [ValidatePoWork_snd]
    exact verdict_of_nonpos _ _ _ _ hlo hv (hlen _)
  · intro pow h1 h2
    rw [ValidatePoWork_snd, verdict_cases]
    simp only [h1, h2]
    rw [scanSum_of_nonpos _ _ hlo hv (hlen _)]
    constructor
    · rintro ⟨i, hi, hb⟩
      rw [if_neg]
      intro hall
      rw [hall i hi] at hb
      exact Bool.noConfusion hb
    · intro hall
      rw [if_pos hall]
  · intro fired fuel msg p1 pr er h
    cases pr with
    | none => rfl
    | some pow =>
      obtain ⟨_, j, _, _, hacc, _, _⟩ :=
        DoProofFor_success_shape _ fired fuel msg p1 pow er h
      have := verdict_of_nonpos q.hashFn v msg pow.proof hlo hv (hlen _)
      simp only [] at hacc
      rw [hacc] at this
      exact Bool.noConfusion this

theorem ValidatePoWork_nonpositive_difficulty_witness :
    ((0 : Int) ≤ 0 ∧ -9223372036854775808 ≤ (0 : Int)
        ∧ ∀ data, 8 * (sumWorker.hashFn.digest data).length < 9223372036854775808)
      ∧ ((sumWorker.SetDifficulty 0).1.ValidatePoWork ⟨[1], 3, 3⟩).2 = (false, none)
      ∧ (sumWorker.SetDifficulty 0).2 ≠ none
      ∧ (sumWorker.SetDifficulty 0).1.difficulty = 0
      ∧ (∀ pow : PoWork, ((sumWorker.SetDifficulty 0).1.ValidatePoWork pow).2.1 = false)
      ∧ (∀ pow : PoWork, sumWorker.hashFn.writeErr [] pow.msg = none →
          sumWorker.hashFn.writeErr pow.msg (putUint64 pow.proof) = none →
          ((∃ i, i < 8 * (sumWorker.hashFn.digest (pow.msg ++ putUint64 pow.proof)).length
                ∧ bitAt (sumWorker.hashFn.digest (pow.msg ++ putUint64 pow.proof)) i = true) →
              ((sumWorker.SetDifficulty 0).1.ValidatePoWork pow).2 = (false, none))
            ∧ ((∀ i, i < 8 * (sumWorker.hashFn.digest (pow.msg ++ putUint64 pow.proof)).length →
                  bitAt (sumWorker.hashFn.digest (pow.msg ++ putUint64 pow.proof)) i = false) →
              ((sumWorker.SetDifficulty 0).1.ValidatePoWork pow).2
                = (false, some errBufferOverrun)))
      ∧ ∀ (fired : Nat → Bool) (fuel : Nat) (msg : List Byte) (p1 : Worker)
          (pr : Option PoWork) (er : Option GoError),
          (sumWorker.SetDifficulty 0).1.DoProofFor fired fuel msg = some (p1, (pr, er)) →
          pr = none :=
  ⟨⟨by decide, by decide, sumHash_digest_short⟩, by decide,
    ValidatePoWork_nonpositive_difficulty sumWorker 0 (by decide) (by decide)
      sumHash_digest_short⟩

/-- C19: validity is downward closed in difficulty. If `ValidatePoWork` returns
`(true, nil)` at difficulty `d2` (a 64-bit `int`), it returns `(true, nil)` at
every difficulty `d1` with `1 ≤ d1 ≤ d2`, for the same hash, message and nonce. -/
theorem ValidatePoWork_downward_closed (p q : Worker) (pow : PoWork)
    (hh : q.hashFn = p.hashFn) (h1 : 1 ≤ q.difficulty)
    (h12 : q.difficulty ≤ p.difficulty) (h2 : p.difficulty < 9223372036854775808)
    (hv : (p.ValidatePoWork pow).2 = (true, none)) :
    (q.ValidatePoWork pow).2 = (true, none)
      ∧ ((p.SetDifficulty q.difficulty).1.ValidatePoWork pow).2 = (true, none) := by
  rw [ValidatePoWork_snd] at hv
  have key := verdict_true_of_le _ _ _ _ _ h1 h12 h2 hv
  constructor
  · rw [ValidatePoWork_snd, hh]; exact key
  · rw [ValidatePoWork_snd, SetDifficulty_fst]; exact key

theorem ValidatePoWork_downward_closed_witness :
    (sumWorker.hashFn = hardWorker.hashFn ∧ 1 ≤ sumWorker.difficulty
        ∧ sumWorker.difficulty ≤ hardWorker.difficulty
        ∧ hardWorker.difficulty < 9223372036854775808
        ∧ (hardWorker.ValidatePoWork ⟨[62], 17, 17⟩).2 = (true, none))
      ∧ (sumWorker.ValidatePoWork ⟨[62], 17, 17⟩).2 = (true, none)
      ∧ ((hardWorker.SetDifficulty sumWorker.difficulty).1.ValidatePoWork
            ⟨[62], 17, 17⟩).2 = (true, none) :=
  ⟨⟨rfl, by decide, by decide, by decide, by decide⟩,
    ValidatePoWork_downward_closed hardWorker sumWorker ⟨[62], 17, 17⟩ rfl (by decide)
      (by decide) (by decide) (by decide)⟩

/-- C20: the timeout is only checked after a validation that did not qualify.
When nonce 0 qualifies for the message, `DoProofFor` returns a proof with nonce 0
and iteration count 0 whatever the timeout value is (zero and negative values
included) and whatever the timer answers, after one validation; no result,
timeout included, comes without a validation. -/
theorem DoProofFor_validates_before_timeout (p : Worker) (msg : List Byte) (v : Int)
    (fired : Nat → Bool)
    (h0 : (p.ValidatePoWork ⟨msg, 0, 0⟩).2 = (true, none)) :
    (∀ f, ∃ p1, (p.SetTimeout v).1.DoProofFor fired (1 + f) msg
        = some (p1, (some ⟨msg, 0, 0⟩, none)))
      ∧ (p.SetTimeout v).1.DoProofFor fired 0 msg = none := by
  rw [SetTimeout_fst]
  refine ⟨fun f => ?_, rfl⟩
  unfold Worker.DoProofFor
  rw [Nat.add_comm 1 f, searchLoop_succ]
  rw [ValidatePoWork_snd] at h0
  simp only [] at h0 ⊢
  rw [h0]
  exact ⟨_, rfl⟩

theorem DoProofFor_validates_before_timeout_witness :
    (sumWorker.ValidatePoWork ⟨[4], 0, 0⟩).2 = (true, none)
      ∧ (∀ f, ∃ p1, (sumWorker.SetTimeout (-1)).1.DoProofFor (fun _ => true) (1 + f) [4]
          = some (p1, (some ⟨[4], 0, 0⟩, none)))
      ∧ (sumWorker.SetTimeout (-1)).1.DoProofFor (fun _ => true) 0 [4] = none :=
  ⟨by decide,
    DoProofFor_validates_before_timeout sumWorker [4] (-1) (fun _ => true) (by decide)⟩

end Powork
